import Mathlib

/-!
# Verification of mamegrep's canvas and navigation core

A shallow embedding of the repository's rendering engine (`src/canvas.rs`)
and cursor/navigation state machine (`src/app.rs`), with theorems settling
the frozen claims about them.

Conventions of the embedding:

* Rust `String`s are `List Char` — one entry per Unicode scalar value, so a
  split that the model performs between two list entries is by construction a
  split at a character boundary (no byte-level corruption is representable).
* The display width of a character (the `unicode-width` crate's
  `UnicodeWidthChar::width`) is an explicit parameter `w : Char → Nat` of
  every width-dependent definition.  `Token::with_style` escapes control
  characters at construction time, so `width()` never returns `None` on a
  stored text; the model therefore takes token texts as already escaped and
  `w` as a total function.
* Machine integers (`usize`) are `Nat`; the source only adds and performs
  checked subtraction on them, so no overflow modelling is needed.
* A Rust `panic!` / `todo!` / `.expect(..)` failure is `Option.none` (or a
  dedicated error constructor where a `Result` error is also in play).
-/

namespace Mamegrep

/-! ## Definitions -/

/-- The filler character `…` pushed by `Token::split_prefix_off` when a split
column lands inside a multi-column character (src/canvas.rs line 231). -/
def fillerChar : Char := '…'

/-- `TokenStyle` from src/canvas.rs (lines 173-179). -/
inductive TokenStyle where
  | plain
  | bold
  | dim
  | underlined
deriving DecidableEq, Repr

/-- `Token` from src/canvas.rs (lines 181-185): a styled run of text. -/
structure Token where
  text : List Char
  style : TokenStyle
deriving DecidableEq, Repr

/-- Display width of a text: sum of per-character widths
(`UnicodeWidthStr::width` as the sum of `UnicodeWidthChar::width`). -/
def widthChars (w : Char → Nat) (cs : List Char) : Nat :=
  (cs.map w).sum

/-- `Token::cols` (src/canvas.rs lines 241-243). -/
def Token.cols (w : Char → Nat) (t : Token) : Nat :=
  widthChars w t.text

/-- `Token::new` (src/canvas.rs lines 188-190): plain style.  Construction-time
control-character escaping (`with_style`, lines 200-214) is the identity on the
texts appearing in this development, which contain no control characters. -/
def Token.mkNew (text : List Char) : Token :=
  { text := text, style := TokenStyle.plain }

/-- The loop of `Token::split_prefix_off` (src/canvas.rs lines 216-239).
`acc` is `acc_cols`, `pre` the part of the text already scanned (the text the
receiver keeps, since `split_off` leaves the prefix in place).  Returns
(text of the returned prefix token, text the receiver is left with).

* `acc = col`: split cleanly before the current character.
* `col < acc + w c` (`next_acc_cols > col`): the split lands inside `c`; the
  suffix starts after `c`, the prefix drops `c` (`self.text.pop()`) and pushes
  one filler character per column in `acc..col`.
* otherwise continue scanning.
* text exhausted: the whole text is the prefix, the receiver becomes empty. -/
def splitPrefixOffGo (w : Char → Nat) (col : Nat) :
    Nat → List Char → List Char → List Char × List Char
  | _, pre, [] => (pre, [])
  | acc, pre, c :: cs =>
    if acc = col then
      (pre, c :: cs)
    else if col < acc + w c then
      (pre ++ List.replicate (col - acc) fillerChar, cs)
    else
      splitPrefixOffGo w col (acc + w c) (pre ++ [c]) cs

/-- `Token::split_prefix_off` (src/canvas.rs lines 216-239): returns
(prefix token handed back to the caller, suffix token the receiver becomes).
Both keep the receiver's style. -/
def Token.splitPrefixOff (w : Char → Nat) (t : Token) (col : Nat) :
    Token × Token :=
  let p := splitPrefixOffGo w col 0 [] t.text
  ({ text := p.1, style := t.style }, { text := p.2, style := t.style })

/-- A concrete width function for witnesses: the ideographic character `あ`
is two columns wide, everything else (including `…` and ASCII) one column. -/
def wEx : Char → Nat := fun c => if c = 'あ' then 2 else 1

/-- `FrameLine` from src/canvas.rs (lines 113-116): one terminal row as an
ordered sequence of tokens. -/
structure FrameLine where
  tokens : List Token
deriving DecidableEq, Repr

/-- `FrameLine::new` / `Default` (src/canvas.rs lines 118-121). -/
def FrameLine.empty : FrameLine := ⟨[]⟩

/-- Total display width of a token sequence. -/
def tokensCols (w : Char → Nat) (ts : List Token) : Nat :=
  (ts.map (Token.cols w)).sum

/-- `FrameLine::cols` (src/canvas.rs lines 168-170). -/
def FrameLine.cols (w : Char → Nat) (L : FrameLine) : Nat :=
  tokensCols w L.tokens

/-- Concatenated text of a token sequence. -/
def tokensText (ts : List Token) : List Char :=
  (ts.map Token.text).flatten

/-- `FrameLine::text` (src/canvas.rs lines 127-129). -/
def FrameLine.text (L : FrameLine) : List Char :=
  tokensText L.tokens

/-- The loop of `FrameLine::split_off` (src/canvas.rs lines 143-166).
`acc` is `acc_cols`, `pre` the tokens the receiver keeps.  Per iteration:

* `acc = col`: split the token list cleanly here (`self.tokens.split_off(i)`).
* after adding the token's width, `acc_cols == col`: `continue` (the split
  happens at the next iteration's head check);
* `acc_cols > col` (`checked_sub` positive): split inside the token using
  `Token::split_prefix_off(token_cols - n)`, the prefix joining the left side;
* otherwise keep scanning.
* list exhausted: `col` out of range, no split (empty suffix). -/
def splitOffGo (w : Char → Nat) (col : Nat) :
    Nat → List Token → List Token → List Token × List Token
  | _, pre, [] => (pre, [])
  | acc, pre, t :: ts =>
    if acc = col then
      (pre, t :: ts)
    else
      let tc := t.cols w
      if acc + tc = col then
        splitOffGo w col (acc + tc) (pre ++ [t]) ts
      else if col < acc + tc then
        let n := acc + tc - col
        let p := t.splitPrefixOff w (tc - n)
        (pre ++ [p.1], p.2 :: ts)
      else
        splitOffGo w col (acc + tc) (pre ++ [t]) ts

/-- `FrameLine::split_off` (src/canvas.rs lines 143-166): the receiver keeps
the first component, the second is returned. -/
def FrameLine.splitOff (w : Char → Nat) (L : FrameLine) (col : Nat) :
    FrameLine × FrameLine :=
  let p := splitOffGo w col 0 [] L.tokens
  (⟨p.1⟩, ⟨p.2⟩)

/-- `FrameLine::draw_token` (src/canvas.rs lines 131-141): pad with spaces if
`col` is past the current width, split at `col`, split the remainder at the
token's width (discarding the overwritten middle), and reassemble. -/
def FrameLine.drawToken (w : Char → Nat) (L : FrameLine) (col : Nat)
    (t : Token) : FrameLine :=
  let L0 : FrameLine :=
    if L.cols w < col then
      ⟨L.tokens ++ [Token.mkNew (List.replicate (col - L.cols w) ' ')]⟩
    else L
  let s1 := L0.splitOff w col
  let s2 := s1.2.splitOff w (t.cols w)
  ⟨s1.1.tokens ++ t :: s2.2.tokens⟩

/-- `TerminalSize` from src/terminal.rs (lines 128-132). -/
structure TerminalSize where
  rows : Nat
  cols : Nat
deriving DecidableEq, Repr

/-- `Frame` from src/canvas.rs (lines 86-90). -/
structure Frame where
  size : TerminalSize
  lines : List FrameLine
deriving DecidableEq, Repr

/-- `Frame::new` (src/canvas.rs lines 92-98): one empty line per row. -/
def Frame.new (size : TerminalSize) : Frame :=
  { size := size, lines := List.replicate size.rows FrameLine.empty }

/-- `Frame::dirty_lines` (src/canvas.rs lines 100-110): pairwise-compare the
two frames' lines (zip + enumerate + filter on inequality), then chain the
enumerated entries of `self` past `prev`'s length. -/
def Frame.dirtyLines (a prev : Frame) : List (Nat × FrameLine) :=
  ((a.lines.zip prev.lines).enum.filterMap
    (fun p => if p.2.1 ≠ p.2.2 then some (p.1, p.2.1) else none)) ++
  (a.lines.enum.drop prev.lines.length)

/-- Recursion-structured description of `dirty_lines`, proved equal to the
iterator chain below. -/
def dirtyAux : Nat → List FrameLine → List FrameLine → List (Nat × FrameLine)
  | _, [], _ => []
  | i, l0 :: r0, [] => (i, l0) :: dirtyAux (i + 1) r0 []
  | i, l0 :: r0, l1 :: r1 =>
    (if l0 ≠ l1 then [(i, l0)] else []) ++ dirtyAux (i + 1) r0 r1

/-- `TokenPosition` from src/canvas.rs (lines 246-262). -/
structure TokenPosition where
  row : Nat
  col : Nat
deriving DecidableEq, Repr

/-- `TokenPosition::ORIGIN`. -/
def TokenPosition.origin : TokenPosition := ⟨0, 0⟩

/-- `Canvas` from src/canvas.rs (lines 7-13). -/
structure Canvas where
  frame : Frame
  frameRowOffset : Nat
  cursor : TokenPosition
  colOffset : Nat
deriving DecidableEq, Repr

/-- `Canvas::new` (src/canvas.rs lines 16-23). -/
def Canvas.new (frameRowOffset : Nat) (size : TerminalSize) : Canvas :=
  { frame := Frame.new size, frameRowOffset := frameRowOffset,
    cursor := TokenPosition.origin, colOffset := 0 }

/-- `Canvas::draw_at` (src/canvas.rs lines 68-79): drop the token when the
row is outside `frame_row_range()`; otherwise add the column offset, draw
into the line, and truncate the line at the frame's column count.  The
in-range row index satisfies `i < size.rows = lines.len()` whenever the
frame invariant holds, so the model's `getD` matches Rust's `lines[i]`. -/
def Canvas.drawAt (w : Char → Nat) (c : Canvas) (pos : TokenPosition)
    (t : Token) : Canvas :=
  if c.frameRowOffset ≤ pos.row ∧
      pos.row < c.frameRowOffset + c.frame.size.rows then
    let col := pos.col + c.colOffset
    let i := pos.row - c.frameRowOffset
    let line := c.frame.lines.getD i FrameLine.empty
    let line2 := ((line.drawToken w col t).splitOff w c.frame.size.cols).1
    { c with frame := { c.frame with lines := c.frame.lines.set i line2 } }
  else c

/-- `Canvas::draw` (src/canvas.rs lines 52-56). -/
def Canvas.draw (w : Char → Nat) (c : Canvas) (t : Token) : Canvas :=
  let cols := t.cols w
  let c2 := c.drawAt w c.cursor t
  { c2 with cursor := { c2.cursor with col := c2.cursor.col + cols } }

/-- `Canvas::newline` (src/canvas.rs lines 63-66). -/
def Canvas.newline (c : Canvas) : Canvas :=
  { c with cursor := { row := c.cursor.row + 1, col := 0 } }

/-- `Canvas::drawln` (src/canvas.rs lines 58-61). -/
def Canvas.drawln (w : Char → Nat) (c : Canvas) (t : Token) : Canvas :=
  (c.draw w t).newline

/-- One drawing operation of the public `Canvas` interface. -/
inductive CanvasOp where
  | draw (t : Token)
  | drawln (t : Token)
  | drawAt (pos : TokenPosition) (t : Token)

/-- Apply one operation. -/
def Canvas.applyOp (w : Char → Nat) (c : Canvas) : CanvasOp → Canvas
  | CanvasOp.draw t => c.draw w t
  | CanvasOp.drawln t => c.drawln w t
  | CanvasOp.drawAt pos t => c.drawAt w pos t

/-- Apply a sequence of operations in order. -/
def Canvas.applyOps (w : Char → Nat) (c : Canvas) (ops : List CanvasOp) :
    Canvas :=
  ops.foldl (Canvas.applyOp w) c

/-- The frame invariant maintained by the canvas: the line count equals the
frame's row count and every line fits in the frame's column count. -/
def CanvasInv (w : Char → Nat) (c : Canvas) : Prop :=
  c.frame.lines.length = c.frame.size.rows ∧
  ∀ l ∈ c.frame.lines, l.cols w ≤ c.frame.size.cols

/-- `MatchLine` as used by src/app.rs: a result line with its (1-based) line
number, text, and whether it matched the pattern (`matched`). -/
structure MatchLine where
  number : Nat
  text : List Char
  matched : Bool
deriving DecidableEq, Repr

/-- The ordered file map `BTreeMap<PathBuf, Vec<MatchLine>>` of the search
result, modelled as an association list whose keys are sorted strictly
ascending (paths as strings). -/
abbrev Files := List (String × List MatchLine)

/-- `Cursor` (src/app.rs lines 695-699). -/
structure Cursor where
  file : Option String
  lineNumber : Option Nat
deriving DecidableEq, Repr

/-- `Cursor::default()`: no selection. -/
def Cursor.start : Cursor := ⟨none, none⟩

/-- The navigation-relevant fields of `AppState` (src/app.rs lines 123-133). -/
structure NavState where
  files : Files
  cursor : Cursor
  collapsed : List String
  dirty : Bool
deriving DecidableEq, Repr

/-- `BTreeMap::get` on the sorted association list. -/
def lookupFile : Files → String → Option (List MatchLine)
  | [], _ => none
  | (k, v) :: rest, f => if k = f then some v else lookupFile rest f

/-- `self.search_result.files.range(..file).rev().next()` (src/app.rs lines
192-198): the greatest key strictly below `f`. -/
def prevKeyBefore (files : Files) (f : String) : Option String :=
  ((files.filter (fun kv => kv.1 < f)).map Prod.fst).getLast?

/-- `self.search_result.files.range(file..).nth(1)` (src/app.rs lines
279-284): the second key at or above `f`. -/
def nextKeyAfter (files : Files) (f : String) : Option String :=
  ((files.filter (fun kv => f ≤ kv.1)).map Prod.fst)[1]?

/-- `AppState::cursor_left` (src/app.rs lines 310-313): clear the line
selection; always succeeds. -/
def cursorLeft (s : NavState) : NavState :=
  { s with cursor := { s.cursor with lineNumber := none }, dirty := true }

/-- `AppState::cursor_up_file` (src/app.rs lines 190-203); `none` models the
`expect("infallible")` panic when no file is selected. -/
def cursorUpFile (s : NavState) : Option NavState :=
  match s.cursor.file with
  | none => none
  | some f =>
    match prevKeyBefore s.files f with
    | some g =>
      some { s with cursor := { s.cursor with file := some g }, dirty := true }
    | none => some s

/-- `AppState::cursor_down_file` (src/app.rs lines 277-289); `none` models
the `expect("infallible")` panic when no file is selected. -/
def cursorDownFile (s : NavState) : Option NavState :=
  match s.cursor.file with
  | none => none
  | some f =>
    match nextKeyAfter s.files f with
    | some g =>
      some { s with cursor := { s.cursor with file := some g }, dirty := true }
    | none => some s

/-- `AppState::cursor_right` (src/app.rs lines 291-308): no-op when the tree
is empty or a line is already selected; otherwise select the file's first
matched line.  `none` models the two `expect("infallible")` panics (absent
file selection; file without any matched line). -/
def cursorRight (s : NavState) : Option NavState :=
  if s.files.isEmpty || s.cursor.lineNumber.isSome then some s
  else
    match s.cursor.file with
    | none => none
    | some f =>
      match lookupFile s.files f with
      | none => none
      | some lines =>
        match lines.find? (fun l => l.matched) with
        | none => none
        | some l =>
          some { s with
            cursor := { s.cursor with lineNumber := some l.number }
            dirty := true }

/-- `AppState::cursor_up_line` (src/app.rs lines 205-235): move to the
nearest earlier matched line of the current file (scanning in reverse);
otherwise `cursor_left`, `cursor_up`, `cursor_right`, restoring the original
cursor when the file did not change and otherwise selecting the new file's
last matched line.  The recursive `self.cursor_up()` call happens right
after `cursor_left` cleared `line_number`, so it always takes the
`cursor_up_file` branch; it is unfolded accordingly here (the equality with
`cursorUp` is `cursorUp_after_left`). -/
def cursorUpLine (s : NavState) : Option NavState :=
  match s.cursor.file, s.cursor.lineNumber with
  | some f, some n =>
    match lookupFile s.files f with
    | none => none
    | some lines =>
      match lines.reverse.find? (fun l => l.matched && decide (l.number < n)) with
      | some l =>
        some { s with
          cursor := { s.cursor with lineNumber := some l.number }
          dirty := true }
      | none =>
        let current := s.cursor
        let s1 := cursorLeft s
        match (if s1.files.isEmpty then some s1 else cursorUpFile s1) with
        | none => none
        | some s2 =>
          match cursorRight s2 with
          | none => none
          | some s3 =>
            if current.file = s3.cursor.file then
              some { s3 with cursor := current }
            else
              match s3.cursor.file with
              | none => none
              | some g =>
                match lookupFile s3.files g with
                | none => none
                | some glines =>
                  let ln := (glines.reverse.find? (fun l => l.matched)).map
                    (fun l => l.number)
                  some { s3 with cursor := { s3.cursor with lineNumber := ln } }
  | _, _ => none

/-- `AppState::cursor_down_line` (src/app.rs lines 249-275): move to the
nearest later matched line of the current file; otherwise `cursor_left`,
`cursor_down`, `cursor_right`, restoring the original cursor when the file
did not change.  The recursive `self.cursor_down()` call happens right after
`cursor_left` cleared `line_number`, so it always takes the
`cursor_down_file` branch; it is unfolded accordingly here (the equality
with `cursorDown` is `cursorDown_after_left`). -/
def cursorDownLine (s : NavState) : Option NavState :=
  match s.cursor.file, s.cursor.lineNumber with
  | some f, some n =>
    match lookupFile s.files f with
    | none => none
    | some lines =>
      match lines.find? (fun l => l.matched && decide (n < l.number)) with
      | some l =>
        some { s with
          cursor := { s.cursor with lineNumber := some l.number }
          dirty := true }
      | none =>
        let current := s.cursor
        let s1 := cursorLeft s
        match (if s1.files.isEmpty then some s1 else cursorDownFile s1) with
        | none => none
        | some s2 =>
          match cursorRight s2 with
          | none => none
          | some s3 =>
            if current.file = s3.cursor.file then
              some { s3 with cursor := current }
            else some s3
  | _, _ => none

/-- `AppState::cursor_up` (src/app.rs lines 178-188). -/
def cursorUp (s : NavState) : Option NavState :=
  if s.files.isEmpty then some s
  else if s.cursor.lineNumber.isSome then cursorUpLine s
  else cursorUpFile s

/-- `AppState::cursor_down` (src/app.rs lines 237-247). -/
def cursorDown (s : NavState) : Option NavState :=
  if s.files.isEmpty then some s
  else if s.cursor.lineNumber.isSome then cursorDownLine s
  else cursorDownFile s

/-- `AppState::toggle_expansion` (src/app.rs lines 143-155): at file level,
flip the selected file's membership in the collapsed set; no-op at line
level or with no selection.  Total. -/
def toggleExpansion (s : NavState) : NavState :=
  if s.cursor.lineNumber.isSome then s
  else
    match s.cursor.file with
    | none => s
    | some f =>
      if f ∈ s.collapsed then
        { s with collapsed := s.collapsed.erase f, dirty := true }
      else
        { s with collapsed := s.collapsed ++ [f], dirty := true }

/-- `AppState::toggle_all_expansion` (src/app.rs lines 157-176).  The
`todo!()` at line 159 — reached whenever the cursor is at line level — is
modelled as `none` (panic).  At file level: clear the collapsed set when
every file is collapsed, otherwise collapse every file. -/
def toggleAllExpansion (s : NavState) : Option NavState :=
  if s.cursor.lineNumber.isSome then none
  else if s.files.all (fun kv => decide (kv.1 ∈ s.collapsed)) then
    some { s with collapsed := [], dirty := true }
  else
    some { s with
      collapsed := s.files.foldl
        (fun (acc : List String) kv =>
          if kv.1 ∈ acc then acc else acc ++ [kv.1]) s.collapsed,
      dirty := true }

/-- `range(..f).rev().chain(range(f..)).next()` mapped to its key
(src/app.rs lines 328-335): nearest predecessor, else nearest successor. -/
def resetNearestKey (files : Files) (f : String) : Option String :=
  (((files.filter (fun kv => kv.1 < f)).reverse ++
    files.filter (fun kv => f ≤ kv.1)).head?).map Prod.fst

/-- `AppState::reset_cursor` (src/app.rs lines 315-352).  The `todo!()` at
line 322 — reached whenever the cursor is at line level — is modelled as
`none` (panic).  Otherwise: empty tree resets the cursor; an absent selected
file is replaced by the first of `range(..f).rev().chain(range(f..))`, i.e.
the nearest predecessor, else the nearest successor; no selection picks the
first key.  The `binary_search_by_key` fallback (lines 344-351) is
unreachable — `line_number` is always `None` past the todo guard — and is
modelled for a sorted line list (`Err i` = number of entries below `n`). -/
def resetCursor (s : NavState) : Option NavState :=
  if s.files.isEmpty then some { s with cursor := Cursor.start }
  else if s.cursor.lineNumber.isSome then none
  else
    let s1 :=
      match s.cursor.file with
      | some f =>
        if (lookupFile s.files f).isNone then
          { s with cursor :=
            { file := resetNearestKey s.files f, lineNumber := none } }
        else s
      | none =>
        { s with cursor :=
          { s.cursor with file := (s.files.head?).map Prod.fst } }
    match s1.cursor.file with
    | none => none
    | some f2 =>
      match s1.cursor.lineNumber with
      | none => some s1
      | some n =>
        match lookupFile s1.files f2 with
        | none => none
        | some lines =>
          if (lines.map (fun l => l.number)).contains n then some s1
          else
            match (lines[(lines.takeWhile
                (fun l => decide (l.number < n))).length]?).orElse
                (fun _ => lines.getLast?) with
            | none => none
            | some l =>
              some { s1 with cursor :=
                { s1.cursor with lineNumber := some l.number } }

/-- Errors surfaced by the embedded app functions: a Rust panic, or an
`orfail` error value carrying a message. -/
inductive AppErr where
  | panicked
  | failed (msg : String)
deriving DecidableEq, Repr

/-- `AppState::regrep` (src/app.rs lines 136-141), the outcome of
`self.grep.call()` — an external process invocation — supplied as the
`outcome` argument.  On `Err` the `?` in
`self.search_result = self.grep.call().or_fail()?` propagates the failure
before the assignment, leaving the state untouched; on `Ok` the new result
replaces the old, `dirty` is set, and the cursor is reset. -/
def regrep (outcome : Except String Files) (s : NavState) :
    Except AppErr NavState :=
  match outcome with
  | Except.error e => Except.error (AppErr.failed e)
  | Except.ok files =>
    match resetCursor { s with files := files, dirty := true } with
    | none => Except.error AppErr.panicked
    | some s2 => Except.ok s2

/-- One iteration of `App::run`'s event loop (src/app.rs lines 40-52) for a
key whose handler triggers a re-search (src/app.rs lines 486-529):
`handle_key_event` calls `state.regrep().or_fail()?`, `handle_event` and
`run` propagate the failure, so the `while` loop terminates.  `none` models
"the loop exits with the error". -/
def eventLoopStepRegrep (outcome : Except String Files) (s : NavState) :
    Option NavState :=
  match regrep outcome s with
  | Except.ok s2 => some s2
  | Except.error _ => none

/-- Well-formedness of a result tree as produced by the grep parser: keys
strictly sorted, each file's line numbers strictly ascending, and every
file containing at least one matched line. -/
def WFiles (files : Files) : Prop :=
  (files.map Prod.fst).Pairwise (· < ·) ∧
  ∀ p ∈ files, (p.2.map (fun l => l.number)).Pairwise (· < ·) ∧
    ∃ l ∈ p.2, l.matched = true

/-- Reachable-state invariant of the app: a well-formed tree; when the tree
is nonempty, a present file is selected and any selected line number is one
of its matched lines. -/
def NavInv (s : NavState) : Prop :=
  WFiles s.files ∧
  (s.files ≠ [] →
    ∃ f lines, s.cursor.file = some f ∧
      lookupFile s.files f = some lines ∧
      ∀ n, s.cursor.lineNumber = some n →
        ∃ l ∈ lines, l.matched = true ∧ l.number = n)

/-- The matched ("hit") line numbers of one file, in order. -/
def hitsOf (lines : List MatchLine) : List Nat :=
  (lines.filter (fun l => l.matched)).map (fun l => l.number)

/-- All hit positions of the tree, flattened in (file, line number) order. -/
def hits (files : Files) : List (String × Nat) :=
  (files.map (fun p => (hitsOf p.2).map (fun n => (p.1, n)))).flatten

/-- The hit that a line-level `cursor_down` moves to: the file's next matched
line, else the next file's first matched line, else none (mirrors the code
path of `cursor_down_line`). -/
def nextHit (files : Files) (f : String) (n : Nat) : Option (String × Nat) :=
  match lookupFile files f with
  | none => none
  | some lines =>
    match lines.find? (fun l => l.matched && decide (n < l.number)) with
    | some l => some (f, l.number)
    | none =>
      match nextKeyAfter files f with
      | none => none
      | some g =>
        match lookupFile files g with
        | none => none
        | some glines =>
          (glines.find? (fun x => x.matched)).map (fun l => (g, l.number))

/-- The hit that a line-level `cursor_up` moves to: the file's previous
matched line, else the previous file's last matched line, else none (mirrors
the code path of `cursor_up_line`). -/
def prevHit (files : Files) (f : String) (n : Nat) : Option (String × Nat) :=
  match lookupFile files f with
  | none => none
  | some lines =>
    match lines.reverse.find? (fun l => l.matched && decide (l.number < n)) with
    | some l => some (f, l.number)
    | none =>
      match prevKeyBefore files f with
      | none => none
      | some g =>
        match lookupFile files g with
        | none => none
        | some glines =>
          (glines.reverse.find? (fun x => x.matched)).map
            (fun l => (g, l.number))

/-- Iterated navigation: `iterNav op k s` applies the fallible step `op`
`k` times starting from `s`. -/
def iterNav (op : NavState → Option NavState) :
    Nat → NavState → Option NavState
  | 0, s => some s
  | k + 1, s => (iterNav op k s).bind op

/-- Example tree for exercising the traversal: `a.txt` with hit lines 1 and
3 (line 2 is context), `b.txt` with hit line 1. -/
def c4Files : Files :=
  [("a.txt", [⟨1, ['a'], true⟩, ⟨2, ['b'], false⟩, ⟨3, ['c'], true⟩]),
   ("b.txt", [⟨1, ['d'], true⟩])]

/-- The traversal's start state: cursor on the first hit of `c4Files`. -/
def c4Start : NavState :=
  { files := c4Files, cursor := ⟨some "a.txt", some 1⟩,
    collapsed := [], dirty := false }

/-- The traversal's end state: cursor on the last hit of `c4Files`. -/
def c4End : NavState :=
  { files := c4Files, cursor := ⟨some "b.txt", some 1⟩,
    collapsed := [], dirty := false }

/-- Rust `str::find` with a literal needle: position (in characters, one per
Unicode scalar) of the first occurrence of `needle` in `hay`. -/
def findSub (hay needle : List Char) : Option Nat :=
  if needle.isPrefixOf hay then some 0
  else
    match hay with
    | [] => none
    | _ :: t => (findSub t needle).map (· + 1)

/-- `SearchResultWidget::highlight_line` (src/widget_search_result.rs lines
114-138): walk the reported matches left to right over the remaining line
text; a match not found by substring search is silently skipped (the
"Normally, this branch should not be executed" `continue`); a found match
emits one reverse-styled draw command `(column, text)` at the running column
offset (`col_offset + line_text[..i].width()`), then both the offset and the
remaining text advance past the match. -/
def highlightLineGo (w : Char → Nat) :
    List Char → Nat → List (List Char) → List (Nat × List Char)
  | _, _, [] => []
  | lineText, colOffset, m :: ms =>
    match findSub lineText m with
    | none => highlightLineGo w lineText colOffset ms
    | some i =>
      (colOffset + widthChars w (lineText.take i), m) ::
        highlightLineGo w (lineText.drop (i + m.length))
          (colOffset + widthChars w (lineText.take i) + widthChars w m) ms

/-- The highlight-application loop of `Tree::render_lines` in src/app.rs
(lines 655-669): `offset + line.text[offset..].find(matched_text)` with
`.expect("TODO")` — `none` models the panic when a reported match is not
found in the line.  (The drawn column is the byte index `i` in the source,
with a "TODO: Consider multi byte char" comment; the embedding counts
characters instead of bytes, which does not affect the panic behaviour.) -/
def renderHighlightsGo (lineText : List Char) :
    Nat → List (List Char) → Option (List (Nat × List Char))
  | _, [] => some []
  | offset, m :: ms =>
    match findSub (lineText.drop offset) m with
    | none => none
    | some j =>
      (renderHighlightsGo lineText (offset + j + m.length) ms).map
        (fun rest => (offset + j, m) :: rest)

/-! ## Theorems -/

theorem widthChars_nil (w : Char → Nat) : widthChars w [] = 0 := rfl

theorem widthChars_cons (w : Char → Nat) (c : Char) (cs : List Char) :
    widthChars w (c :: cs) = w c + widthChars w cs := by
  simp [widthChars]

theorem widthChars_append (w : Char → Nat) (a b : List Char) :
    widthChars w (a ++ b) = widthChars w a + widthChars w b := by
  simp [widthChars]

theorem widthChars_replicate (w : Char → Nat) (n : Nat) (c : Char) :
    widthChars w (List.replicate n c) = n * w c := by
  simp [widthChars, List.map_replicate, List.sum_replicate, Nat.smul_one_eq_cast]

/-- When the split column falls strictly inside the character `c` (the scanned
prefix `pcs` is strictly narrower than `col`, but `pcs` plus `c` passes it),
the loop drops `c`, pads the prefix with fillers up to `col`, and hands the
rest of the text to the suffix. -/
theorem splitPrefixOffGo_straddle (w : Char → Nat) (col : Nat) :
    ∀ (pcs : List Char) (c : Char) (post : List Char) (acc : Nat) (pre : List Char),
      acc + widthChars w pcs < col →
      col < acc + widthChars w pcs + w c →
      splitPrefixOffGo w col acc pre (pcs ++ c :: post) =
        (pre ++ pcs ++ List.replicate (col - (acc + widthChars w pcs)) fillerChar,
         post) := by
  intro pcs
  induction pcs with
  | nil =>
    intro c post acc pre hlt hgt
    simp only [widthChars_nil, Nat.add_zero] at hlt hgt
    simp only [List.nil_append]
    rw [splitPrefixOffGo]
    rw [if_neg (Nat.ne_of_lt hlt), if_pos hgt]
    simp [widthChars]
  | cons d rest ih =>
    intro c post acc pre hlt hgt
    have hwd : acc + w d + widthChars w rest = acc + widthChars w (d :: rest) := by
      rw [widthChars_cons]; omega
    have hlt' : acc + w d + widthChars w rest < col := by omega
    have hgt' : col < acc + w d + widthChars w rest + w c := by omega
    have hne : acc ≠ col := by
      have : acc ≤ acc + widthChars w (d :: rest) := Nat.le_add_right _ _
      omega
    have hnostraddle : ¬ col < acc + w d := by
      have : acc + w d ≤ acc + w d + widthChars w rest := Nat.le_add_right _ _
      omega
    simp only [List.cons_append]
    rw [splitPrefixOffGo, if_neg hne, if_neg hnostraddle]
    rw [ih c post (acc + w d) (pre ++ [d]) hlt' hgt']
    rw [widthChars_cons]
    have harith : col - (acc + (w d + widthChars w rest)) =
        col - (acc + w d + widthChars w rest) := by omega
    simp [harith, List.append_assoc]

/-- The prefix returned by the loop is the scanned part plus a (possibly
empty) run of fillers appended to a literal prefix of the text. -/
theorem splitPrefixOffGo_left_shape (w : Char → Nat) (col : Nat) :
    ∀ (text : List Char) (acc : Nat) (pre : List Char),
      ∃ j m, j ≤ text.length ∧ (splitPrefixOffGo w col acc pre text).1 =
        pre ++ text.take j ++ List.replicate m fillerChar := by
  intro text
  induction text with
  | nil =>
    intro acc pre
    exact ⟨0, 0, Nat.le_refl _, by simp [splitPrefixOffGo]⟩
  | cons c cs ih =>
    intro acc pre
    rw [splitPrefixOffGo]
    by_cases h1 : acc = col
    · exact ⟨0, 0, Nat.zero_le _, by simp [h1]⟩
    · rw [if_neg h1]
      by_cases h2 : col < acc + w c
      · exact ⟨0, col - acc, Nat.zero_le _, by simp [h2]⟩
      · rw [if_neg h2]
        obtain ⟨j, m, hj, hjm⟩ := ih (acc + w c) (pre ++ [c])
        exact ⟨j + 1, m, by simpa using hj, by simp [hjm, List.append_assoc]⟩

/-- The suffix returned by the loop is a literal suffix (a `drop`) of the
text: no filler and no partial character ever lands on the right side. -/
theorem splitPrefixOffGo_right_drop (w : Char → Nat) (col : Nat) :
    ∀ (text : List Char) (acc : Nat) (pre : List Char),
      ∃ k, k ≤ text.length ∧
        (splitPrefixOffGo w col acc pre text).2 = text.drop k := by
  intro text
  induction text with
  | nil =>
    intro acc pre
    exact ⟨0, Nat.le_refl _, by simp [splitPrefixOffGo]⟩
  | cons c cs ih =>
    intro acc pre
    rw [splitPrefixOffGo]
    by_cases h1 : acc = col
    · exact ⟨0, Nat.zero_le _, by simp [h1]⟩
    · rw [if_neg h1]
      by_cases h2 : col < acc + w c
      · exact ⟨1, by simp, by simp [h2]⟩
      · rw [if_neg h2]
        obtain ⟨k, hk, hke⟩ := ih (acc + w c) (pre ++ [c])
        exact ⟨k + 1, by simpa using hk, by simp [hke]⟩

/-- If the requested column is past the whole text, the loop returns the
entire text as prefix and an empty suffix. -/
theorem splitPrefixOffGo_of_gt (w : Char → Nat) (col : Nat) :
    ∀ (text : List Char) (acc : Nat) (pre : List Char),
      acc + widthChars w text < col →
      splitPrefixOffGo w col acc pre text = (pre ++ text, []) := by
  intro text
  induction text with
  | nil =>
    intro acc pre _
    simp [splitPrefixOffGo]
  | cons c cs ih =>
    intro acc pre h
    rw [widthChars_cons] at h
    rw [splitPrefixOffGo]
    rw [if_neg (by omega : acc ≠ col), if_neg (by omega : ¬ col < acc + w c)]
    rw [ih (acc + w c) (pre ++ [c]) (by omega)]
    simp

/-- As long as the column is within the scanned text (and the filler is one
column wide), the prefix's width is exactly the distance from `acc` to the
requested column. -/
theorem splitPrefixOffGo_width_eq (w : Char → Nat) (col : Nat)
    (hfill : w fillerChar = 1) :
    ∀ (text : List Char) (acc : Nat) (pre : List Char),
      acc ≤ col → col ≤ acc + widthChars w text →
      widthChars w (splitPrefixOffGo w col acc pre text).1 =
        widthChars w pre + (col - acc) := by
  intro text
  induction text with
  | nil =>
    intro acc pre h1 h2
    rw [widthChars_nil] at h2
    have : acc = col := by omega
    simp [splitPrefixOffGo, this]
  | cons c cs ih =>
    intro acc pre h1 h2
    rw [widthChars_cons] at h2
    rw [splitPrefixOffGo]
    by_cases hc1 : acc = col
    · simp [hc1]
    · rw [if_neg hc1]
      by_cases hc2 : col < acc + w c
      · rw [if_pos hc2]
        simp only [widthChars_append, widthChars_replicate, hfill]
        omega
      · rw [if_neg hc2]
        rw [ih (acc + w c) (pre ++ [c]) (by omega) (by omega)]
        rw [widthChars_append]
        simp only [widthChars_cons, widthChars_nil]
        omega

/-- The returned prefix never exceeds the requested column in width
(when the filler is one column wide). -/
theorem splitPrefixOffGo_width_le (w : Char → Nat) (col : Nat)
    (hfill : w fillerChar = 1)
    (text : List Char) (acc : Nat) (pre : List Char)
    (h1 : acc ≤ col) :
    widthChars w (splitPrefixOffGo w col acc pre text).1 ≤
      widthChars w pre + (col - acc) := by
  by_cases h2 : col ≤ acc + widthChars w text
  · rw [splitPrefixOffGo_width_eq w col hfill text acc pre h1 h2]
  · rw [splitPrefixOffGo_of_gt w col text acc pre (by omega)]
    rw [widthChars_append]
    omega

/-- `split_prefix_off` at a column strictly inside a multi-column character:
the prefix keeps the characters before the straddled one plus one filler per
remaining column, the suffix is exactly the characters after it, styles are
preserved, and (when the filler has width 1) the prefix's width is exactly the
requested column.  The straddled character appears in neither side. -/
theorem Token.splitPrefixOff_straddle (w : Char → Nat) (t : Token)
    (col : Nat) (pcs : List Char) (c : Char) (post : List Char)
    (htext : t.text = pcs ++ c :: post)
    (hlt : widthChars w pcs < col)
    (hgt : col < widthChars w pcs + w c)
    (hfill : w fillerChar = 1) :
    t.splitPrefixOff w col =
      ({ text := pcs ++ List.replicate (col - widthChars w pcs) fillerChar,
         style := t.style },
       { text := post, style := t.style }) ∧
    widthChars w (t.splitPrefixOff w col).1.text = col := by
  have hgo := splitPrefixOffGo_straddle w col pcs c post 0 [] (by omega) (by omega)
  simp only [Nat.zero_add, List.nil_append] at hgo
  have hres : t.splitPrefixOff w col =
      ({ text := pcs ++ List.replicate (col - widthChars w pcs) fillerChar,
         style := t.style },
       { text := post, style := t.style }) := by
    unfold Token.splitPrefixOff
    rw [htext, hgo]
  refine ⟨hres, ?_⟩
  rw [hres]
  simp only [widthChars_append, widthChars_replicate, hfill]
  omega

theorem Token.splitPrefixOff_fst_shape (w : Char → Nat) (t : Token)
    (col : Nat) :
    ∃ j m, j ≤ t.text.length ∧
      (t.splitPrefixOff w col).1.text =
        t.text.take j ++ List.replicate m fillerChar := by
  obtain ⟨j, m, hj, h⟩ := splitPrefixOffGo_left_shape w col t.text 0 []
  exact ⟨j, m, hj, by simpa [Token.splitPrefixOff] using h⟩

theorem Token.splitPrefixOff_snd_drop (w : Char → Nat) (t : Token)
    (col : Nat) :
    ∃ k, k ≤ t.text.length ∧
      (t.splitPrefixOff w col).2.text = t.text.drop k := by
  obtain ⟨k, hk, h⟩ := splitPrefixOffGo_right_drop w col t.text 0 []
  exact ⟨k, hk, by simpa [Token.splitPrefixOff] using h⟩

theorem Token.splitPrefixOff_fst_width_eq (w : Char → Nat)
    (hfill : w fillerChar = 1) (t : Token) (col : Nat)
    (h : col ≤ t.cols w) :
    widthChars w (t.splitPrefixOff w col).1.text = col := by
  have := splitPrefixOffGo_width_eq w col hfill t.text 0 []
    (Nat.zero_le _) (by simpa [Token.cols] using h)
  simpa [Token.splitPrefixOff, widthChars] using this

theorem Token.splitPrefixOff_fst_width_le (w : Char → Nat)
    (hfill : w fillerChar = 1) (t : Token) (col : Nat) :
    widthChars w (t.splitPrefixOff w col).1.text ≤ col := by
  have := splitPrefixOffGo_width_le w col hfill t.text 0 [] (Nat.zero_le _)
  simpa [Token.splitPrefixOff, widthChars] using this

theorem tokensCols_nil (w : Char → Nat) : tokensCols w [] = 0 := rfl

theorem tokensCols_cons (w : Char → Nat) (t : Token) (ts : List Token) :
    tokensCols w (t :: ts) = t.cols w + tokensCols w ts := by
  simp [tokensCols]

theorem tokensCols_append (w : Char → Nat) (a b : List Token) :
    tokensCols w (a ++ b) = tokensCols w a + tokensCols w b := by
  simp [tokensCols]

theorem tokensText_nil : tokensText [] = [] := rfl

theorem tokensText_cons (t : Token) (ts : List Token) :
    tokensText (t :: ts) = t.text ++ tokensText ts := by
  simp [tokensText]

theorem tokensText_append (a b : List Token) :
    tokensText (a ++ b) = tokensText a ++ tokensText b := by
  simp [tokensText]

/-- Width of a token sequence equals the width of its concatenated text. -/
theorem widthChars_tokensText (w : Char → Nat) (ts : List Token) :
    widthChars w (tokensText ts) = tokensCols w ts := by
  induction ts with
  | nil => rfl
  | cons t rest ih =>
    rw [tokensText_cons, widthChars_append, ih, tokensCols_cons, Token.cols]

/-- The left side of a line split is (textually) a literal prefix of the
line's text followed by a run of fillers. -/
theorem splitOffGo_left_shape (w : Char → Nat) (col : Nat) :
    ∀ (ts : List Token) (acc : Nat) (pre : List Token),
      ∃ j m, tokensText (splitOffGo w col acc pre ts).1 =
        tokensText pre ++ (tokensText ts).take j ++
          List.replicate m fillerChar := by
  intro ts
  induction ts with
  | nil =>
    intro acc pre
    exact ⟨0, 0, by simp [splitOffGo, tokensText_nil]⟩
  | cons t rest ih =>
    intro acc pre
    rw [splitOffGo]
    by_cases h1 : acc = col
    · exact ⟨0, 0, by simp [h1]⟩
    · rw [if_neg h1]
      simp only
      by_cases h2 : acc + t.cols w = col
      · rw [if_pos h2]
        obtain ⟨j, m, hjm⟩ := ih (acc + t.cols w) (pre ++ [t])
        refine ⟨t.text.length + j, m, ?_⟩
        rw [hjm, tokensText_append, tokensText_cons, tokensText_cons,
          tokensText_nil, List.append_nil, List.take_append]
        simp [List.append_assoc]
      · rw [if_neg h2]
        by_cases h3 : col < acc + t.cols w
        · rw [if_pos h3]
          obtain ⟨j, m, hj, hjm⟩ :=
            Token.splitPrefixOff_fst_shape w t
              (t.cols w - (acc + t.cols w - col))
          refine ⟨j, m, ?_⟩
          rw [tokensText_append, tokensText_cons, tokensText_nil,
            List.append_nil, hjm, tokensText_cons,
            List.take_append_of_le_length hj, List.append_assoc]
        · rw [if_neg h3]
          obtain ⟨j, m, hjm⟩ := ih (acc + t.cols w) (pre ++ [t])
          refine ⟨t.text.length + j, m, ?_⟩
          rw [hjm, tokensText_append, tokensText_cons, tokensText_cons,
            tokensText_nil, List.append_nil, List.take_append]
          simp [List.append_assoc]

/-- The right side of a line split is (textually) a literal suffix of the
line's text. -/
theorem splitOffGo_right_suffix (w : Char → Nat) (col : Nat) :
    ∀ (ts : List Token) (acc : Nat) (pre : List Token),
      tokensText (splitOffGo w col acc pre ts).2 <:+ tokensText ts := by
  intro ts
  induction ts with
  | nil =>
    intro acc pre
    simp [splitOffGo]
  | cons t rest ih =>
    intro acc pre
    rw [splitOffGo]
    by_cases h1 : acc = col
    · simp [h1]
    · rw [if_neg h1]
      simp only
      by_cases h2 : acc + t.cols w = col
      · rw [if_pos h2]
        exact (ih (acc + t.cols w) (pre ++ [t])).trans
          (by rw [tokensText_cons]; exact List.suffix_append _ _)
      · rw [if_neg h2]
        by_cases h3 : col < acc + t.cols w
        · rw [if_pos h3]
          obtain ⟨k, hk, hke⟩ :=
            Token.splitPrefixOff_snd_drop w t
              (t.cols w - (acc + t.cols w - col))
          simp only [tokensText_cons, hke]
          rw [← List.drop_append_of_le_length hk]
          exact List.drop_suffix k _
        · rw [if_neg h3]
          exact (ih (acc + t.cols w) (pre ++ [t])).trans
            (by rw [tokensText_cons]; exact List.suffix_append _ _)

/-- If the requested column is past the whole line, no split happens. -/
theorem splitOffGo_of_gt (w : Char → Nat) (col : Nat) :
    ∀ (ts : List Token) (acc : Nat) (pre : List Token),
      acc + tokensCols w ts < col →
      splitOffGo w col acc pre ts = (pre ++ ts, []) := by
  intro ts
  induction ts with
  | nil =>
    intro acc pre _
    simp [splitOffGo]
  | cons t rest ih =>
    intro acc pre h
    rw [tokensCols_cons] at h
    rw [splitOffGo]
    rw [if_neg (by omega : acc ≠ col)]
    simp only
    rw [if_neg (by omega : ¬ acc + t.cols w = col),
      if_neg (by omega : ¬ col < acc + t.cols w)]
    rw [ih (acc + t.cols w) (pre ++ [t]) (by omega)]
    simp

/-- As long as the column is within the line (and the filler is one column
wide), the left side's width is exactly the distance from `acc` to `col`. -/
theorem splitOffGo_width_eq (w : Char → Nat) (col : Nat)
    (hfill : w fillerChar = 1) :
    ∀ (ts : List Token) (acc : Nat) (pre : List Token),
      acc ≤ col → col ≤ acc + tokensCols w ts →
      tokensCols w (splitOffGo w col acc pre ts).1 =
        tokensCols w pre + (col - acc) := by
  intro ts
  induction ts with
  | nil =>
    intro acc pre h1 h2
    rw [tokensCols_nil] at h2
    have : acc = col := by omega
    simp [splitOffGo, this]
  | cons t rest ih =>
    intro acc pre h1 h2
    rw [tokensCols_cons] at h2
    rw [splitOffGo]
    by_cases hc1 : acc = col
    · simp [hc1]
    · rw [if_neg hc1]
      simp only
      by_cases hc2 : acc + t.cols w = col
      · rw [if_pos hc2]
        rw [ih (acc + t.cols w) (pre ++ [t]) (by omega) (by omega)]
        rw [tokensCols_append, tokensCols_cons, tokensCols_nil]
        omega
      · rw [if_neg hc2]
        by_cases hc3 : col < acc + t.cols w
        · rw [if_pos hc3]
          have harg : t.cols w - (acc + t.cols w - col) = col - acc := by
            omega
          have hle : col - acc ≤ t.cols w := by omega
          have := Token.splitPrefixOff_fst_width_eq w hfill t
            (t.cols w - (acc + t.cols w - col)) (by omega)
          rw [tokensCols_append, tokensCols_cons, tokensCols_nil,
            Token.cols, this, harg]
          omega
        · rw [if_neg hc3]
          rw [ih (acc + t.cols w) (pre ++ [t]) (by omega) (by omega)]
          rw [tokensCols_append, tokensCols_cons, tokensCols_nil]
          omega

/-- The left side of a line split never exceeds the requested column. -/
theorem splitOffGo_width_le (w : Char → Nat) (col : Nat)
    (hfill : w fillerChar = 1)
    (ts : List Token) (acc : Nat) (pre : List Token) (h1 : acc ≤ col) :
    tokensCols w (splitOffGo w col acc pre ts).1 ≤
      tokensCols w pre + (col - acc) := by
  by_cases h2 : col ≤ acc + tokensCols w ts
  · rw [splitOffGo_width_eq w col hfill ts acc pre h1 h2]
  · rw [splitOffGo_of_gt w col ts acc pre (by omega)]
    rw [tokensCols_append]
    omega

/-- Splitting exactly at the end of a line whose last token has positive
width consumes the whole line and returns an empty suffix. -/
theorem splitOffGo_exact_end (w : Char → Nat) (col : Nat) :
    ∀ (ts : List Token) (tk : Token) (acc : Nat) (pre : List Token),
      0 < tk.cols w → acc + tokensCols w ts + tk.cols w = col →
      splitOffGo w col acc pre (ts ++ [tk]) = (pre ++ (ts ++ [tk]), []) := by
  intro ts
  induction ts with
  | nil =>
    intro tk acc pre hpos hcol
    rw [tokensCols_nil] at hcol
    simp only [List.nil_append]
    rw [splitOffGo]
    rw [if_neg (by omega : acc ≠ col)]
    simp only
    rw [if_pos (by omega : acc + tk.cols w = col)]
    rw [splitOffGo]
  | cons t rest ih =>
    intro tk acc pre hpos hcol
    rw [tokensCols_cons] at hcol
    simp only [List.cons_append]
    rw [splitOffGo]
    rw [if_neg (by omega : acc ≠ col)]
    simp only
    rw [if_neg (by omega : ¬ acc + t.cols w = col),
      if_neg (by omega : ¬ col < acc + t.cols w)]
    rw [ih tk (acc + t.cols w) (pre ++ [t]) hpos (by omega)]
    simp

theorem FrameLine.splitOff_fst_cols_eq (w : Char → Nat)
    (hfill : w fillerChar = 1) (L : FrameLine) (col : Nat)
    (h : col ≤ L.cols w) :
    ((L.splitOff w col).1).cols w = col := by
  have := splitOffGo_width_eq w col hfill L.tokens 0 []
    (Nat.zero_le _) (by simpa [FrameLine.cols] using h)
  simpa [FrameLine.splitOff, FrameLine.cols, tokensCols] using this

theorem FrameLine.splitOff_fst_cols_le (w : Char → Nat)
    (hfill : w fillerChar = 1) (L : FrameLine) (col : Nat) :
    ((L.splitOff w col).1).cols w ≤ col := by
  have := splitOffGo_width_le w col hfill L.tokens 0 [] (Nat.zero_le _)
  simpa [FrameLine.splitOff, FrameLine.cols, tokensCols] using this

theorem FrameLine.splitOff_fst_text_shape (w : Char → Nat) (L : FrameLine)
    (col : Nat) :
    ∃ j m, ((L.splitOff w col).1).text =
      L.text.take j ++ List.replicate m fillerChar := by
  obtain ⟨j, m, h⟩ := splitOffGo_left_shape w col L.tokens 0 []
  exact ⟨j, m, by simpa [FrameLine.splitOff, FrameLine.text] using h⟩

theorem FrameLine.splitOff_snd_text_suffix (w : Char → Nat) (L : FrameLine)
    (col : Nat) :
    ((L.splitOff w col).2).text <:+ L.text := by
  have := splitOffGo_right_suffix w col L.tokens 0 []
  simpa [FrameLine.splitOff, FrameLine.text] using this

/-- Core of the `draw_token` analysis, for a line `L0` already wide enough
for the target column (after padding): the result decomposes as
left part (of width exactly `col`) ++ token ++ right part, the left part a
prefix of `L0`'s text plus fillers, the right part a suffix of it. -/
theorem drawToken_core (w : Char → Nat) (hfill : w fillerChar = 1)
    (L0 : FrameLine) (col : Nat) (t : Token) (hcol : col ≤ L0.cols w) :
    ∀ T : FrameLine,
      T.tokens = (L0.splitOff w col).1.tokens ++
        t :: ((L0.splitOff w col).2.splitOff w (t.cols w)).2.tokens →
      ∃ P S : List Token,
        T.tokens = P ++ t :: S ∧
        tokensCols w P = col ∧
        T.cols w = col + t.cols w + tokensCols w S ∧
        T.text = tokensText P ++ t.text ++ tokensText S ∧
        (∃ j m, tokensText P =
          L0.text.take j ++ List.replicate m fillerChar) ∧
        tokensText S <:+ L0.text := by
  intro T hT
  refine ⟨(L0.splitOff w col).1.tokens,
    ((L0.splitOff w col).2.splitOff w (t.cols w)).2.tokens, hT, ?_, ?_, ?_, ?_, ?_⟩
  · exact FrameLine.splitOff_fst_cols_eq w hfill L0 col hcol
  · have hP := FrameLine.splitOff_fst_cols_eq w hfill L0 col hcol
    rw [FrameLine.cols] at hP
    rw [FrameLine.cols, hT, tokensCols_append, tokensCols_cons, hP]
    omega
  · rw [FrameLine.text, hT, tokensText_append, tokensText_cons,
      List.append_assoc]
  · obtain ⟨j, m, h⟩ := FrameLine.splitOff_fst_text_shape w L0 col
    exact ⟨j, m, h⟩
  · exact (FrameLine.splitOff_snd_text_suffix w
        ((L0.splitOff w col).2) (t.cols w)).trans
      (FrameLine.splitOff_snd_text_suffix w L0 col)

/-- Definitional unfolding of `FrameLine.drawToken`. -/
theorem drawToken_unfold (w : Char → Nat) (L : FrameLine) (col : Nat)
    (t : Token) :
    (L.drawToken w col t).tokens =
      ((if L.cols w < col then
          (⟨L.tokens ++ [Token.mkNew (List.replicate (col - L.cols w) ' ')]⟩ :
            FrameLine)
        else L).splitOff w col).1.tokens ++
      t :: (((if L.cols w < col then
          (⟨L.tokens ++ [Token.mkNew (List.replicate (col - L.cols w) ' ')]⟩ :
            FrameLine)
        else L).splitOff w col).2.splitOff w (t.cols w)).2.tokens := rfl

/-- The padded line used by `draw_token` has width exactly `col` when a gap
was padded (spaces being one column wide). -/
theorem padded_cols (w : Char → Nat) (hsp : w ' ' = 1) (L : FrameLine)
    (col : Nat) (h : L.cols w < col) :
    (⟨L.tokens ++ [Token.mkNew (List.replicate (col - L.cols w) ' ')]⟩ :
      FrameLine).cols w = col := by
  rw [FrameLine.cols, tokensCols_append, tokensCols_cons, tokensCols_nil]
  have : Token.cols w (Token.mkNew (List.replicate (col - L.cols w) ' ')) =
      col - L.cols w := by
    rw [Token.cols, Token.mkNew, widthChars_replicate, hsp]
    omega
  rw [this]
  have : tokensCols w L.tokens = L.cols w := rfl
  omega

/-- The padded line's text is the original text followed by the gap's
spaces. -/
theorem padded_text (L : FrameLine) (col : Nat) :
    (⟨L.tokens ++ [Token.mkNew (List.replicate (col - L.cols w) ' ')]⟩ :
      FrameLine).text = L.text ++ List.replicate (col - L.cols w) ' ' := by
  rw [FrameLine.text, tokensText_append, tokensText_cons, tokensText_nil,
    List.append_nil]
  rfl

/-- C2: after `FrameLine::draw_token(col, t)` the row decomposes as
`P ++ [t] ++ S` with `width(P) = col` exactly, so the total width is at least
`col + width(t)` and the columns `[col, col + width(t))` of the row's text
read back exactly `t`'s text; the content left of `col` is a literal prefix
of the (gap-padded) previous text up to boundary fillers, the content right
of `col + width(t)` a literal suffix of it; and when `col` exceeded the
row's prior width the row is exactly the old tokens, one plain space-filled
token of the gap's width, and `t`. -/
theorem claim_C2_draw_token_overwrite (w : Char → Nat) (L : FrameLine)
    (col : Nat) (t : Token)
    (hfill : w fillerChar = 1) (hsp : w ' ' = 1) :
    ∃ P S : List Token,
      (L.drawToken w col t).tokens = P ++ t :: S ∧
      tokensCols w P = col ∧
      (L.drawToken w col t).cols w = col + t.cols w + tokensCols w S ∧
      col + t.cols w ≤ (L.drawToken w col t).cols w ∧
      (L.drawToken w col t).text = tokensText P ++ t.text ++ tokensText S ∧
      (∃ j m, tokensText P =
        (if L.cols w < col
          then L.text ++ List.replicate (col - L.cols w) ' '
          else L.text).take j ++ List.replicate m fillerChar) ∧
      tokensText S <:+
        (if L.cols w < col
          then L.text ++ List.replicate (col - L.cols w) ' '
          else L.text) ∧
      (L.cols w < col →
        (L.drawToken w col t).tokens =
          L.tokens ++
            Token.mkNew (List.replicate (col - L.cols w) ' ') :: [t]) := by
  have hu := drawToken_unfold w L col t
  by_cases h : L.cols w < col
  · rw [if_pos h] at hu
    have hcol : col ≤
        (⟨L.tokens ++ [Token.mkNew (List.replicate (col - L.cols w) ' ')]⟩ :
          FrameLine).cols w := by
      rw [padded_cols w hsp L col h]
    obtain ⟨P, S, h1, h2, h3, h4, h5, h6⟩ :=
      drawToken_core w hfill _ col t hcol (L.drawToken w col t) hu
    refine ⟨P, S, h1, h2, h3, by omega, h4, ?_, ?_, ?_⟩
    · rw [if_pos h]
      rw [padded_text L col] at h5
      exact h5
    · rw [if_pos h]
      rw [padded_text L col] at h6
      exact h6
    · intro _
      have hpos : 0 < Token.cols w
          (Token.mkNew (List.replicate (col - L.cols w) ' ')) := by
        rw [Token.cols, Token.mkNew, widthChars_replicate, hsp]
        omega
      have hend : splitOffGo w col 0 []
          (L.tokens ++ [Token.mkNew (List.replicate (col - L.cols w) ' ')]) =
          ([] ++ (L.tokens ++
            [Token.mkNew (List.replicate (col - L.cols w) ' ')]), []) :=
        splitOffGo_exact_end w col L.tokens _ 0 [] hpos
          (by
            have : tokensCols w L.tokens = L.cols w := rfl
            rw [Token.cols, Token.mkNew, widthChars_replicate, hsp]
            omega)
      have hsplit : (⟨L.tokens ++
          [Token.mkNew (List.replicate (col - L.cols w) ' ')]⟩ :
            FrameLine).splitOff w col =
          (⟨L.tokens ++ [Token.mkNew (List.replicate (col - L.cols w) ' ')]⟩,
           ⟨[]⟩) := by
        rw [FrameLine.splitOff]
        rw [hend]
        simp
      rw [hu, hsplit]
      have hsnd : (⟨[]⟩ : FrameLine).splitOff w (t.cols w) = (⟨[]⟩, ⟨[]⟩) := rfl
      rw [hsnd]
      simp
  · rw [if_neg h] at hu
    have hcol : col ≤ L.cols w := by omega
    obtain ⟨P, S, h1, h2, h3, h4, h5, h6⟩ :=
      drawToken_core w hfill L col t hcol (L.drawToken w col t) hu
    refine ⟨P, S, h1, h2, h3, by omega, h4, ?_, ?_, ?_⟩
    · rw [if_neg h]
      exact h5
    · rw [if_neg h]
      exact h6
    · intro hcontr
      exact absurd hcontr h

/-- Witness for C2 at a concrete input: drawing the bold token `x` at column
3 on the row `ab` (all characters one column wide) pads a one-column gap. -/
theorem claim_C2_draw_token_overwrite_witness :
    3 + Token.cols wEx ⟨['x'], TokenStyle.bold⟩ ≤
      ((⟨[Token.mkNew ['a', 'b']]⟩ : FrameLine).drawToken wEx 3
        ⟨['x'], TokenStyle.bold⟩).cols wEx ∧
    ((⟨[Token.mkNew ['a', 'b']]⟩ : FrameLine).drawToken wEx 3
        ⟨['x'], TokenStyle.bold⟩).tokens =
      [Token.mkNew ['a', 'b'], Token.mkNew [' '], ⟨['x'], TokenStyle.bold⟩] := by
  obtain ⟨P, S, h1, h2, h3, h4, h5, h6, h7, h8⟩ :=
    claim_C2_draw_token_overwrite wEx ⟨[Token.mkNew ['a', 'b']]⟩ 3
      ⟨['x'], TokenStyle.bold⟩ (by decide) (by decide)
  refine ⟨h4, ?_⟩
  have hgap : FrameLine.cols wEx ⟨[Token.mkNew ['a', 'b']]⟩ < 3 := by decide
  have := h8 hgap
  rw [this]
  rfl

theorem dirtyLines_eq_aux :
    ∀ (xs : List FrameLine) (ys : List FrameLine) (n : Nat),
      ((xs.zip ys).enumFrom n |>.filterMap
        (fun p => if p.2.1 ≠ p.2.2 then some (p.1, p.2.1) else none)) ++
      ((xs.enumFrom n).drop ys.length) = dirtyAux n xs ys := by
  intro xs
  induction xs with
  | nil =>
    intro ys n
    simp [dirtyAux]
  | cons x r0 ih =>
    intro ys n
    cases ys with
    | nil =>
      rw [dirtyAux, ← ih [] (n + 1)]
      simp [List.enumFrom]
    | cons y r1 =>
      rw [dirtyAux, ← ih r1 (n + 1)]
      simp only [List.zip_cons_cons, List.enumFrom, List.filterMap_cons,
        List.length_cons, List.drop_succ_cons]
      by_cases hxy : x = y
      · simp [hxy, List.zip]
      · simp [hxy, List.append_assoc, List.zip]

theorem dirtyLines_eq (a prev : Frame) :
    a.dirtyLines prev = dirtyAux 0 a.lines prev.lines := by
  rw [Frame.dirtyLines]
  exact dirtyLines_eq_aux a.lines prev.lines 0

theorem dirtyAux_nil_iff :
    ∀ (n : Nat) (xs ys : List FrameLine), xs.length = ys.length →
      (dirtyAux n xs ys = [] ↔ xs = ys) := by
  intro n xs
  induction xs generalizing n with
  | nil =>
    intro ys hlen
    cases ys with
    | nil => simp [dirtyAux]
    | cons y r1 => simp at hlen
  | cons x r0 ih =>
    intro ys hlen
    cases ys with
    | nil => simp at hlen
    | cons y r1 =>
      rw [dirtyAux]
      by_cases hxy : x = y
      · subst hxy
        have h2 := ih (n + 1) r1 (by simpa using hlen)
        simp [h2]
      · simp [hxy]

theorem dirtyAux_mem_fst :
    ∀ (n : Nat) (xs ys : List FrameLine) (j : Nat),
      j ∈ (dirtyAux n xs ys).map Prod.fst ↔
        ∃ k, j = n + k ∧ k < xs.length ∧
          (ys.length ≤ k ∨ xs[k]? ≠ ys[k]?) := by
  intro n xs
  induction xs generalizing n with
  | nil =>
    intro ys j
    simp [dirtyAux]
  | cons x r0 ih =>
    intro ys j
    cases ys with
    | nil =>
      rw [dirtyAux]
      simp only [List.map_cons, List.mem_cons, ih (n + 1) []]
      constructor
      · rintro (rfl | ⟨k, rfl, hk, _⟩)
        · exact ⟨0, by omega, by simp, Or.inl (by simp)⟩
        · exact ⟨k + 1, by omega, by simpa using hk, Or.inl (by simp)⟩
      · rintro ⟨k, rfl, hk, _⟩
        cases k with
        | zero => exact Or.inl (by omega)
        | succ k' =>
          exact Or.inr ⟨k', by omega, by simpa using hk, Or.inl (by simp)⟩
    | cons y r1 =>
      rw [dirtyAux]
      by_cases hxy : x = y
      · subst hxy
        rw [if_neg (by simp), List.nil_append]
        rw [ih (n + 1) r1]
        constructor
        · rintro ⟨k, rfl, hk, hd⟩
          refine ⟨k + 1, by omega, by simpa using hk, ?_⟩
          cases hd with
          | inl hle => exact Or.inl (by simpa using hle)
          | inr hne => exact Or.inr (by simpa using hne)
        · rintro ⟨k, rfl, hk, hd⟩
          cases k with
          | zero =>
            exfalso
            cases hd with
            | inl hle => simp at hle
            | inr hne => simp at hne
          | succ k' =>
            refine ⟨k', by omega, by simpa using hk, ?_⟩
            cases hd with
            | inl hle => exact Or.inl (by simpa using hle)
            | inr hne => exact Or.inr (by simpa using hne)
      · rw [if_pos hxy, List.singleton_append]
        simp only [List.map_cons, List.mem_cons, ih (n + 1) r1]
        constructor
        · rintro (rfl | ⟨k, rfl, hk, hd⟩)
          · exact ⟨0, by omega, by simp, Or.inr (by simp [hxy])⟩
          · refine ⟨k + 1, by omega, by simpa using hk, ?_⟩
            cases hd with
            | inl hle => exact Or.inl (by simpa using hle)
            | inr hne => exact Or.inr (by simpa using hne)
        · rintro ⟨k, rfl, hk, hd⟩
          cases k with
          | zero => exact Or.inl (by omega)
          | succ k' =>
            refine Or.inr ⟨k', by omega, by simpa using hk, ?_⟩
            cases hd with
            | inl hle => exact Or.inl (by simpa using hle)
            | inr hne => exact Or.inr (by simpa using hne)

theorem dirtyAux_fst_ge :
    ∀ (n : Nat) (xs ys : List FrameLine) (j : Nat),
      j ∈ (dirtyAux n xs ys).map Prod.fst → n ≤ j := by
  intro n xs ys j hj
  obtain ⟨k, rfl, -, -⟩ := (dirtyAux_mem_fst n xs ys j).mp hj
  omega

theorem dirtyAux_fst_nodup :
    ∀ (n : Nat) (xs ys : List FrameLine),
      ((dirtyAux n xs ys).map Prod.fst).Nodup := by
  intro n xs
  induction xs generalizing n with
  | nil =>
    intro ys
    simp [dirtyAux]
  | cons x r0 ih =>
    intro ys
    cases ys with
    | nil =>
      rw [dirtyAux]
      simp only [List.map_cons, List.nodup_cons]
      refine ⟨fun hmem => ?_, ih (n + 1) []⟩
      have := dirtyAux_fst_ge (n + 1) r0 [] n hmem
      omega
    | cons y r1 =>
      rw [dirtyAux]
      by_cases hxy : x = y
      · simpa [hxy] using ih (n + 1) r1
      · rw [if_pos hxy, List.singleton_append]
        simp only [List.map_cons, List.nodup_cons]
        refine ⟨fun hmem => ?_, ih (n + 1) r1⟩
        have := dirtyAux_fst_ge (n + 1) r0 r1 n hmem
        omega

/-- C3: for frames with equally many rows, `dirty_lines` is empty exactly
when all rows coincide; in general the yielded row indices are exactly those
`j` that are in range for `self` and either beyond `prev`'s length or at
which the two rows differ, and no index is yielded twice. -/
theorem claim_C3_dirty_lines_diff (A B : Frame) :
    (A.lines.length = B.lines.length →
      (A.dirtyLines B = [] ↔ A.lines = B.lines)) ∧
    (∀ j, j ∈ (A.dirtyLines B).map Prod.fst ↔
      (j < A.lines.length ∧ (B.lines.length ≤ j ∨ A.lines[j]? ≠ B.lines[j]?))) ∧
    ((A.dirtyLines B).map Prod.fst).Nodup := by
  refine ⟨?_, ?_, ?_⟩
  · intro hlen
    rw [dirtyLines_eq]
    exact dirtyAux_nil_iff 0 A.lines B.lines hlen
  · intro j
    rw [dirtyLines_eq]
    rw [dirtyAux_mem_fst 0 A.lines B.lines j]
    constructor
    · rintro ⟨k, rfl, hk, hd⟩
      simpa using ⟨hk, hd⟩
    · rintro ⟨hk, hd⟩
      exact ⟨j, by omega, hk, hd⟩
  · rw [dirtyLines_eq]
    exact dirtyAux_fst_nodup 0 A.lines B.lines

/-- Witness for C3 at concrete frames: two freshly created 2×4 frames have
no dirty lines (they are equal), exercising the equal-length hypothesis. -/
theorem claim_C3_dirty_lines_diff_witness :
    (Frame.new ⟨2, 4⟩).dirtyLines (Frame.new ⟨2, 4⟩) = [] := by
  exact ((claim_C3_dirty_lines_diff (Frame.new ⟨2, 4⟩)
    (Frame.new ⟨2, 4⟩)).1 rfl).mpr rfl

theorem drawAt_size (w : Char → Nat) (c : Canvas) (pos : TokenPosition)
    (t : Token) : (c.drawAt w pos t).frame.size = c.frame.size := by
  rw [Canvas.drawAt]
  by_cases h : c.frameRowOffset ≤ pos.row ∧
      pos.row < c.frameRowOffset + c.frame.size.rows
  · rw [if_pos h]
  · rw [if_neg h]

theorem drawAt_inv (w : Char → Nat) (hfill : w fillerChar = 1) (c : Canvas)
    (pos : TokenPosition) (t : Token) (hinv : CanvasInv w c) :
    CanvasInv w (c.drawAt w pos t) := by
  rw [Canvas.drawAt]
  by_cases h : c.frameRowOffset ≤ pos.row ∧
      pos.row < c.frameRowOffset + c.frame.size.rows
  · rw [if_pos h]
    obtain ⟨hlen, hcols⟩ := hinv
    constructor
    · simpa using hlen
    · intro l hl
      rcases List.mem_or_eq_of_mem_set hl with hmem | rfl
      · exact hcols l hmem
      · exact FrameLine.splitOff_fst_cols_le w hfill _ _
  · rw [if_neg h]
    exact hinv

theorem applyOp_size (w : Char → Nat) (c : Canvas) (op : CanvasOp) :
    (c.applyOp w op).frame.size = c.frame.size := by
  cases op with
  | draw t => exact drawAt_size w c c.cursor t
  | drawln t => exact drawAt_size w c c.cursor t
  | drawAt pos t => exact drawAt_size w c pos t

theorem applyOp_inv (w : Char → Nat) (hfill : w fillerChar = 1) (c : Canvas)
    (op : CanvasOp) (hinv : CanvasInv w c) : CanvasInv w (c.applyOp w op) := by
  cases op with
  | draw t => exact drawAt_inv w hfill c c.cursor t hinv
  | drawln t => exact drawAt_inv w hfill c c.cursor t hinv
  | drawAt pos t => exact drawAt_inv w hfill c pos t hinv

theorem applyOps_inv (w : Char → Nat) (hfill : w fillerChar = 1) :
    ∀ (ops : List CanvasOp) (c : Canvas), CanvasInv w c →
      CanvasInv w (c.applyOps w ops) := by
  intro ops
  induction ops with
  | nil => intro c hc; exact hc
  | cons op rest ih =>
    intro c hc
    exact ih (c.applyOp w op) (applyOp_inv w hfill c op hc)

theorem applyOps_size (w : Char → Nat) :
    ∀ (ops : List CanvasOp) (c : Canvas),
      (c.applyOps w ops).frame.size = c.frame.size := by
  intro ops
  induction ops with
  | nil => intro c; rfl
  | cons op rest ih =>
    intro c
    rw [Canvas.applyOps, List.foldl_cons]
    rw [show List.foldl (Canvas.applyOp w) (c.applyOp w op) rest =
      (c.applyOp w op).applyOps w rest from rfl]
    rw [ih (c.applyOp w op), applyOp_size]

/-- C10: starting from a fresh canvas, any sequence of `draw`, `drawln` and
`draw_at` operations keeps every frame line within the frame's column count
and keeps the number of lines equal to the frame's row count; moreover a
`draw_at` whose row is outside the visible row range leaves the frame
unchanged. -/
theorem claim_C10_canvas_invariant (w : Char → Nat) (ops : List CanvasOp)
    (offset : Nat) (size : TerminalSize) (hfill : w fillerChar = 1) :
    (((Canvas.new offset size).applyOps w ops).frame.lines.length =
        size.rows ∧
     ∀ l ∈ ((Canvas.new offset size).applyOps w ops).frame.lines,
        l.cols w ≤ size.cols) ∧
    (∀ (c : Canvas) (pos : TokenPosition) (t : Token),
      pos.row < c.frameRowOffset ∨
        c.frameRowOffset + c.frame.size.rows ≤ pos.row →
      (c.drawAt w pos t).frame = c.frame) := by
  constructor
  · have hstart : CanvasInv w (Canvas.new offset size) := by
      constructor
      · simp [Canvas.new, Frame.new]
      · intro l hl
        rw [List.eq_of_mem_replicate hl]
        simp [FrameLine.cols, FrameLine.empty, tokensCols_nil]
    have hfin := applyOps_inv w hfill ops (Canvas.new offset size) hstart
    have hsz := applyOps_size w ops (Canvas.new offset size)
    obtain ⟨h1, h2⟩ := hfin
    rw [hsz] at h1 h2
    exact ⟨h1, h2⟩
  · intro c pos t h
    rw [Canvas.drawAt, if_neg (by omega)]

/-- Witness for C10 at a concrete input: a draw sequence on a 2×3 canvas,
including one out-of-range `draw_at`. -/
theorem claim_C10_canvas_invariant_witness :
    (((Canvas.new 1 ⟨2, 3⟩).applyOps wEx
        [CanvasOp.drawln (Token.mkNew ['a', 'b', 'c', 'd']),
         CanvasOp.drawAt ⟨0, 0⟩ (Token.mkNew ['z']),
         CanvasOp.draw (Token.mkNew ['x'])]).frame.lines.length = 2) ∧
    ((Canvas.new 1 ⟨2, 3⟩).drawAt wEx ⟨0, 0⟩ (Token.mkNew ['z'])).frame =
      (Canvas.new 1 ⟨2, 3⟩).frame := by
  have h := claim_C10_canvas_invariant wEx
    [CanvasOp.drawln (Token.mkNew ['a', 'b', 'c', 'd']),
     CanvasOp.drawAt ⟨0, 0⟩ (Token.mkNew ['z']),
     CanvasOp.draw (Token.mkNew ['x'])] 1 ⟨2, 3⟩ (by decide)
  exact ⟨h.1.1, h.2 (Canvas.new 1 ⟨2, 3⟩) ⟨0, 0⟩ (Token.mkNew ['z'])
    (Or.inl (by decide))⟩

/-- With no line selected, `cursor_up` is the file-level move (this is the
situation at the recursive call inside `cursor_up_line`). -/
theorem cursorUp_after_left (s : NavState) (h : s.cursor.lineNumber = none) :
    cursorUp s = if s.files.isEmpty then some s else cursorUpFile s := by
  rw [cursorUp, h]
  by_cases he : s.files.isEmpty <;> simp [he]

/-- With no line selected, `cursor_down` is the file-level move (this is the
situation at the recursive call inside `cursor_down_line`). -/
theorem cursorDown_after_left (s : NavState) (h : s.cursor.lineNumber = none) :
    cursorDown s = if s.files.isEmpty then some s else cursorDownFile s := by
  rw [cursorDown, h]
  by_cases he : s.files.isEmpty <;> simp [he]

theorem lookupFile_mem {files : Files} {f : String} {lines : List MatchLine}
    (h : lookupFile files f = some lines) : (f, lines) ∈ files := by
  induction files with
  | nil => simp [lookupFile] at h
  | cons kv rest ih =>
    obtain ⟨k, v⟩ := kv
    rw [lookupFile] at h
    by_cases hk : k = f
    · rw [if_pos hk] at h
      subst hk
      cases h
      exact List.mem_cons_self _ _
    · rw [if_neg hk] at h
      exact List.mem_cons_of_mem _ (ih h)

theorem lookupFile_isSome {files : Files} {f : String}
    (h : f ∈ files.map Prod.fst) : (lookupFile files f).isSome := by
  induction files with
  | nil => simp at h
  | cons kv rest ih =>
    obtain ⟨k, v⟩ := kv
    rw [lookupFile]
    by_cases hk : k = f
    · simp [hk]
    · rw [if_neg hk]
      refine ih ?_
      simp only [List.map_cons, List.mem_cons] at h
      rcases h with h | h
      · exact absurd h.symm hk
      · exact h

theorem mem_keys_of_lookupFile {files : Files} {f : String}
    {lines : List MatchLine} (h : lookupFile files f = some lines) :
    f ∈ files.map Prod.fst := by
  have := lookupFile_mem h
  exact List.mem_map.mpr ⟨(f, lines), this, rfl⟩

theorem prevKeyBefore_mem {files : Files} {f g : String}
    (h : prevKeyBefore files f = some g) : g ∈ files.map Prod.fst := by
  rw [prevKeyBefore] at h
  have hg := List.mem_of_mem_getLast? h
  obtain ⟨kv, hkv, rfl⟩ := List.mem_map.mp hg
  exact List.mem_map.mpr ⟨kv, List.mem_of_mem_filter hkv, rfl⟩

theorem nextKeyAfter_mem {files : Files} {f g : String}
    (h : nextKeyAfter files f = some g) : g ∈ files.map Prod.fst := by
  rw [nextKeyAfter] at h
  have hg := List.getElem?_mem h
  obtain ⟨kv, hkv, rfl⟩ := List.mem_map.mp hg
  exact List.mem_map.mpr ⟨kv, List.mem_of_mem_filter hkv, rfl⟩

theorem cursorLeft_files (s : NavState) : (cursorLeft s).files = s.files := rfl

theorem cursorLeft_file (s : NavState) :
    (cursorLeft s).cursor.file = s.cursor.file := rfl

theorem cursorLeft_lineNumber (s : NavState) :
    (cursorLeft s).cursor.lineNumber = none := rfl

/-- `cursor_up_file` characterized: with a file selected it succeeds, only
the selected file (and `dirty`) can change, and the new selected file is
either a key of the tree or the old selection. -/
theorem cursorUpFile_total {s : NavState} {f : String}
    (hf : s.cursor.file = some f) :
    ∃ s2, cursorUpFile s = some s2 ∧ s2.files = s.files ∧
      s2.collapsed = s.collapsed ∧
      s2.cursor.lineNumber = s.cursor.lineNumber ∧
      ∃ g, s2.cursor.file = some g ∧
        (g ∈ s.files.map Prod.fst ∨ g = f) := by
  cases hprev : prevKeyBefore s.files f with
  | some g =>
    exact ⟨{ s with cursor := { s.cursor with file := some g }, dirty := true },
      by rw [cursorUpFile]; simp [hf, hprev],
      rfl, rfl, rfl, g, rfl, Or.inl (prevKeyBefore_mem hprev)⟩
  | none =>
    exact ⟨s, by rw [cursorUpFile]; simp [hf, hprev], rfl, rfl, rfl,
      f, hf, Or.inr rfl⟩

/-- `cursor_down_file` characterized, symmetrically. -/
theorem cursorDownFile_total {s : NavState} {f : String}
    (hf : s.cursor.file = some f) :
    ∃ s2, cursorDownFile s = some s2 ∧ s2.files = s.files ∧
      s2.collapsed = s.collapsed ∧
      s2.cursor.lineNumber = s.cursor.lineNumber ∧
      ∃ g, s2.cursor.file = some g ∧
        (g ∈ s.files.map Prod.fst ∨ g = f) := by
  cases hnext : nextKeyAfter s.files f with
  | some g =>
    exact ⟨{ s with cursor := { s.cursor with file := some g }, dirty := true },
      by rw [cursorDownFile]; simp [hf, hnext],
      rfl, rfl, rfl, g, rfl, Or.inl (nextKeyAfter_mem hnext)⟩
  | none =>
    exact ⟨s, by rw [cursorDownFile]; simp [hf, hnext], rfl, rfl, rfl,
      f, hf, Or.inr rfl⟩

/-- `cursor_right` at file level with a matched line present: the exact
resulting state. -/
theorem cursorRight_file_level {s : NavState} {f : String}
    {lines : List MatchLine} {l : MatchLine}
    (hne : s.files.isEmpty = false) (hn : s.cursor.lineNumber = none)
    (hf : s.cursor.file = some f) (hl : lookupFile s.files f = some lines)
    (hfind : lines.find? (fun x => x.matched) = some l) :
    cursorRight s = some { s with
      cursor := { s.cursor with lineNumber := some l.number },
      dirty := true } := by
  rw [cursorRight, if_neg (by simp [hne, hn])]
  simp only [hf, hl, hfind]

/-- Under `WFiles`, any key's lines contain a matched line, so the
`find?`-based first-hit lookup succeeds. -/
theorem find_matched_isSome {files : Files} (hW : WFiles files)
    {f : String} {lines : List MatchLine}
    (hl : lookupFile files f = some lines) :
    (lines.find? (fun x => x.matched)).isSome := by
  obtain ⟨l, hlmem, hlm⟩ := (hW.2 _ (lookupFile_mem hl)).2
  exact List.find?_isSome.mpr ⟨l, hlmem, hlm⟩

/-- `cursor_right` succeeds whenever the state satisfies the invariant's
file-selection component. -/
theorem cursorRight_isSome {s : NavState} (hW : WFiles s.files)
    (hsel : s.files ≠ [] → ∃ f, s.cursor.file = some f ∧
      f ∈ s.files.map Prod.fst) :
    (cursorRight s).isSome := by
  rw [cursorRight]
  by_cases hc : s.files.isEmpty || s.cursor.lineNumber.isSome
  · simp [hc]
  · rw [if_neg (by simpa using hc)]
    simp only [Bool.or_eq_true, not_or, Bool.not_eq_true] at hc
    have hne : s.files ≠ [] := by
      intro h
      rw [h] at hc
      simp at hc
    obtain ⟨f, hf, hmem⟩ := hsel hne
    obtain ⟨lines, hl⟩ := Option.isSome_iff_exists.mp (lookupFile_isSome hmem)
    obtain ⟨l, hfind⟩ :=
      Option.isSome_iff_exists.mp (find_matched_isSome hW hl)
    simp [hf, hl, hfind]

/-- A successful `cursor_right` changes at most the selected line number and
the dirty flag. -/
theorem cursorRight_preserves {s s3 : NavState}
    (h : cursorRight s = some s3) :
    s3.files = s.files ∧ s3.cursor.file = s.cursor.file ∧
      s3.collapsed = s.collapsed := by
  rw [cursorRight] at h
  by_cases hc : s.files.isEmpty || s.cursor.lineNumber.isSome
  · rw [if_pos hc] at h
    cases h
    exact ⟨rfl, rfl, rfl⟩
  · rw [if_neg hc] at h
    cases hfile : s.cursor.file with
    | none => simp [hfile] at h
    | some f =>
      simp only [hfile] at h
      cases hlk : lookupFile s.files f with
      | none => simp [hlk] at h
      | some lines =>
        simp only [hlk] at h
        cases hfd : lines.find? (fun l => l.matched) with
        | none => simp [hfd] at h
        | some l =>
          simp only [hfd, Option.some.injEq] at h
          rw [← h]
          exact ⟨rfl, rfl, rfl⟩

/-- A key returned by `prevKeyBefore` is strictly below the probe. -/
theorem prevKeyBefore_lt {files : Files} {f g : String}
    (h : prevKeyBefore files f = some g) : g < f := by
  rw [prevKeyBefore] at h
  have hg := List.mem_of_mem_getLast? h
  obtain ⟨kv, hkv, rfl⟩ := List.mem_map.mp hg
  have := (List.mem_filter.mp hkv).2
  simpa using this

/-- With strictly sorted keys, a key returned by `nextKeyAfter` is strictly
above the probe (it sits at index 1 of the `f ≤ ·` filtered keys, after an
index-0 entry that is already `≥ f`). -/
theorem nextKeyAfter_gt {files : Files} {f g : String}
    (hsort : (files.map Prod.fst).Pairwise (· < ·))
    (h : nextKeyAfter files f = some g) : f < g := by
  rw [nextKeyAfter] at h
  have hsub : List.Sublist
      ((files.filter (fun kv => decide (f ≤ kv.1))).map Prod.fst)
      (files.map Prod.fst) :=
    List.Sublist.map Prod.fst (List.filter_sublist files)
  have hMp := List.Pairwise.sublist hsub hsort
  cases hM : (files.filter (fun kv => decide (f ≤ kv.1))).map Prod.fst with
  | nil => rw [hM] at h; simp at h
  | cons m0 Mtail =>
    cases hMt : Mtail with
    | nil => rw [hM, hMt] at h; simp at h
    | cons m1 rest =>
      rw [hM, hMt] at h
      simp only [List.getElem?_cons_succ, List.getElem?_cons_zero,
        Option.some.injEq] at h
      have hm0 : f ≤ m0 := by
        have hm0mem : m0 ∈ (files.filter (fun kv => decide (f ≤ kv.1))).map
            Prod.fst := by
          rw [hM]
          exact List.mem_cons_self _ _
        obtain ⟨kv, hkv, rfl⟩ := List.mem_map.mp hm0mem
        have := (List.mem_filter.mp hkv).2
        simpa using this
      have hlt : m0 < m1 := by
        rw [hM, hMt] at hMp
        exact (List.pairwise_cons.mp hMp).1 m1 (List.mem_cons_self _ _)
      rw [← h]
      exact lt_of_le_of_lt hm0 hlt

/-- `cursor_up_line` when the current file has no earlier matched line and no
file precedes it: the state is restored (only `dirty` is set). -/
theorem cursorUpLine_noPrev {s : NavState} {f : String} {n : Nat}
    {lines : List MatchLine} {l0 : MatchLine}
    (hnee : s.files.isEmpty = false)
    (hf : s.cursor.file = some f) (hn : s.cursor.lineNumber = some n)
    (hl : lookupFile s.files f = some lines)
    (hfind : lines.reverse.find? (fun l => l.matched && decide (l.number < n)) =
      none)
    (hprev : prevKeyBefore s.files f = none)
    (hl0 : lines.find? (fun x => x.matched) = some l0) :
    cursorUpLine s = some { s with dirty := true } := by
  have hne : s.files ≠ [] := by
    cases hfs : s.files with
    | nil => rw [hfs] at hnee; exact absurd hnee (by simp)
    | cons a r => simp
  rw [cursorUpLine]
  simp only [hf, hn, hl, hfind]
  simp [cursorLeft, cursorUpFile, cursorRight, hf, hn, hprev, hnee, hne, hl,
    hl0]

/-- `cursor_up_line` crossing into the preceding file `g`: `g` is selected
with its last matched line. -/
theorem cursorUpLine_prev {s : NavState} {f g : String} {n : Nat}
    {lines glines : List MatchLine} {l0 : MatchLine}
    (hnee : s.files.isEmpty = false)
    (hf : s.cursor.file = some f) (hn : s.cursor.lineNumber = some n)
    (hl : lookupFile s.files f = some lines)
    (hfind : lines.reverse.find? (fun l => l.matched && decide (l.number < n)) =
      none)
    (hprev : prevKeyBefore s.files f = some g)
    (hglk : lookupFile s.files g = some glines)
    (hfirstg : glines.find? (fun x => x.matched) = some l0) :
    cursorUpLine s = some { s with
      cursor := { file := some g, lineNumber :=
        (glines.reverse.find? (fun x => x.matched)).map (fun l => l.number) },
      dirty := true } := by
  have hgf : ¬ (some f = some g) := by
    have := prevKeyBefore_lt hprev
    simp only [Option.some.injEq]
    intro hcontr
    rw [hcontr] at this
    exact lt_irrefl _ this
  have hne : s.files ≠ [] := by
    cases hfs : s.files with
    | nil => rw [hfs] at hnee; exact absurd hnee (by simp)
    | cons a r => simp
  rw [cursorUpLine]
  simp only [hf, hn, hl, hfind]
  simp [cursorLeft, cursorUpFile, cursorRight, hf, hn, hprev, hnee, hne,
    hglk, hfirstg, hgf]

/-- `cursor_down_line` when the current file has no later matched line and no
file follows it: the state is restored (only `dirty` is set). -/
theorem cursorDownLine_noNext {s : NavState} {f : String} {n : Nat}
    {lines : List MatchLine} {l0 : MatchLine}
    (hnee : s.files.isEmpty = false)
    (hf : s.cursor.file = some f) (hn : s.cursor.lineNumber = some n)
    (hl : lookupFile s.files f = some lines)
    (hfind : lines.find? (fun l => l.matched && decide (n < l.number)) = none)
    (hnext : nextKeyAfter s.files f = none)
    (hl0 : lines.find? (fun x => x.matched) = some l0) :
    cursorDownLine s = some { s with dirty := true } := by
  have hne : s.files ≠ [] := by
    cases hfs : s.files with
    | nil => rw [hfs] at hnee; exact absurd hnee (by simp)
    | cons a r => simp
  rw [cursorDownLine]
  simp only [hf, hn, hl, hfind]
  simp [cursorLeft, cursorDownFile, cursorRight, hf, hn, hnext, hnee, hne,
    hl, hl0]

/-- `cursor_down_line` crossing into the following file `g` (distinct from
the current file): `g` is selected with its first matched line. -/
theorem cursorDownLine_next {s : NavState} {f g : String} {n : Nat}
    {lines glines : List MatchLine} {l0 : MatchLine}
    (hnee : s.files.isEmpty = false)
    (hf : s.cursor.file = some f) (hn : s.cursor.lineNumber = some n)
    (hl : lookupFile s.files f = some lines)
    (hfind : lines.find? (fun l => l.matched && decide (n < l.number)) = none)
    (hnext : nextKeyAfter s.files f = some g) (hgf : g ≠ f)
    (hglk : lookupFile s.files g = some glines)
    (hfirstg : glines.find? (fun x => x.matched) = some l0) :
    cursorDownLine s = some { s with
      cursor := { file := some g, lineNumber := some l0.number },
      dirty := true } := by
  have hgf2 : ¬ (some f = some g) := by
    simp only [Option.some.injEq]
    intro hcontr
    exact hgf hcontr.symm
  have hne : s.files ≠ [] := by
    cases hfs : s.files with
    | nil => rw [hfs] at hnee; exact absurd hnee (by simp)
    | cons a r => simp
  rw [cursorDownLine]
  simp only [hf, hn, hl, hfind]
  simp [cursorLeft, cursorDownFile, cursorRight, hf, hn, hnext, hnee, hne,
    hglk, hfirstg, hgf2]

/-- `cursor_up_line` never panics on an invariant-respecting state. -/
theorem cursorUpLine_isSome {s : NavState} (hW : WFiles s.files)
    {f : String} {n : Nat} {lines : List MatchLine}
    (hf : s.cursor.file = some f) (hn : s.cursor.lineNumber = some n)
    (hl : lookupFile s.files f = some lines) :
    (cursorUpLine s).isSome := by
  have hmem : f ∈ s.files.map Prod.fst := mem_keys_of_lookupFile hl
  have hne : s.files ≠ [] := by
    intro h0
    rw [h0] at hmem
    simp at hmem
  have hnee : s.files.isEmpty = false := by
    cases hfs : s.files with
    | nil => exact absurd hfs hne
    | cons a r => rfl
  cases hfind :
      lines.reverse.find? (fun l => l.matched && decide (l.number < n)) with
  | some l =>
    rw [cursorUpLine]
    simp [hf, hn, hl, hfind]
  | none =>
    cases hprev : prevKeyBefore s.files f with
    | none =>
      obtain ⟨l0, hl0⟩ :=
        Option.isSome_iff_exists.mp (find_matched_isSome hW hl)
      rw [cursorUpLine_noPrev hnee hf hn hl hfind hprev hl0]
      rfl
    | some g =>
      have hgmem := prevKeyBefore_mem hprev
      obtain ⟨glines, hglk⟩ :=
        Option.isSome_iff_exists.mp (lookupFile_isSome hgmem)
      obtain ⟨l0, hl0⟩ :=
        Option.isSome_iff_exists.mp (find_matched_isSome hW hglk)
      rw [cursorUpLine_prev hnee hf hn hl hfind hprev hglk hl0]
      rfl

/-- `cursor_down_line` never panics on an invariant-respecting state. -/
theorem cursorDownLine_isSome {s : NavState} (hW : WFiles s.files)
    {f : String} {n : Nat} {lines : List MatchLine}
    (hf : s.cursor.file = some f) (hn : s.cursor.lineNumber = some n)
    (hl : lookupFile s.files f = some lines) :
    (cursorDownLine s).isSome := by
  have hmem : f ∈ s.files.map Prod.fst := mem_keys_of_lookupFile hl
  have hne : s.files ≠ [] := by
    intro h0
    rw [h0] at hmem
    simp at hmem
  have hnee : s.files.isEmpty = false := by
    cases hfs : s.files with
    | nil => exact absurd hfs hne
    | cons a r => rfl
  cases hfind : lines.find? (fun l => l.matched && decide (n < l.number)) with
  | some l =>
    rw [cursorDownLine]
    simp [hf, hn, hl, hfind]
  | none =>
    cases hnext : nextKeyAfter s.files f with
    | none =>
      obtain ⟨l0, hl0⟩ :=
        Option.isSome_iff_exists.mp (find_matched_isSome hW hl)
      rw [cursorDownLine_noNext hnee hf hn hl hfind hnext hl0]
      rfl
    | some g =>
      have hgmem := nextKeyAfter_mem hnext
      obtain ⟨glines, hglk⟩ :=
        Option.isSome_iff_exists.mp (lookupFile_isSome hgmem)
      obtain ⟨l0, hl0⟩ :=
        Option.isSome_iff_exists.mp (find_matched_isSome hW hglk)
      have hgf : g ≠ f := by
        have := nextKeyAfter_gt hW.1 hnext
        intro hcontr
        rw [hcontr] at this
        exact lt_irrefl _ this
      rw [cursorDownLine_next hnee hf hn hl hfind hnext hgf hglk hl0]
      rfl

/-- `toggle_all_expansion` succeeds at file level (both branches of the
global toggle return normally). -/
theorem toggleAllExpansion_isSome {s : NavState}
    (hn : s.cursor.lineNumber = none) :
    (toggleAllExpansion s).isSome := by
  rw [toggleAllExpansion]
  simp only [hn, Option.isSome_none, Bool.false_eq_true, if_false]
  by_cases hc : s.files.all (fun kv => decide (kv.1 ∈ s.collapsed)) <;>
    simp [hc]

/-- The `range(..f).rev().chain(range(f..))` pick is some key whenever the
tree is nonempty: every key is on one of the two sides. -/
theorem resetNearestKey_isSome {files : Files} {f : String}
    (h : files ≠ []) : (resetNearestKey files f).isSome := by
  rw [resetNearestKey, Option.isSome_map']
  rw [List.head?_isSome]
  cases files with
  | nil => exact absurd rfl h
  | cons kv rest =>
    rcases lt_or_ge kv.1 f with hlt | hge
    · have hkv : kv ∈ (kv :: rest).filter (fun kv => decide (kv.1 < f)) :=
        List.mem_filter.mpr ⟨List.mem_cons_self _ _, by simpa using hlt⟩
      have : ((kv :: rest).filter (fun kv => decide (kv.1 < f))).reverse ≠ [] := by
        simp only [ne_eq, List.reverse_eq_nil_iff]
        exact List.ne_nil_of_mem hkv
      exact List.append_ne_nil_of_left_ne_nil this _
    · have hkv : kv ∈ (kv :: rest).filter (fun kv => decide (f ≤ kv.1)) :=
        List.mem_filter.mpr ⟨List.mem_cons_self _ _, by simpa using hge⟩
      intro hcontr
      rcases List.append_eq_nil.mp hcontr with ⟨-, h2⟩
      rw [h2] at hkv
      simp at hkv

/-- `reset_cursor` succeeds at file level: the replacement key chain is
nonempty on a nonempty tree and the dead line-number fallback is skipped. -/
theorem resetCursor_isSome {s : NavState}
    (hn : s.cursor.lineNumber = none) :
    (resetCursor s).isSome := by
  rw [resetCursor]
  by_cases he : s.files.isEmpty
  · simp [he]
  · have hne : s.files ≠ [] := by
      cases hfs : s.files with
      | nil => rw [hfs] at he; exact absurd rfl he
      | cons a r => simp
    rw [if_neg he, if_neg (by simp [hn])]
    cases hfile : s.cursor.file with
    | none =>
      simp only [hfile]
      have hh : (s.files.head?).isSome := List.head?_isSome.mpr hne
      obtain ⟨kv, hkv⟩ := Option.isSome_iff_exists.mp hh
      simp [hkv, hn]
    | some f =>
      simp only [hfile]
      by_cases hlk : (lookupFile s.files f).isNone
      · simp only [hlk, if_true, if_pos]
        obtain ⟨g, hg⟩ :=
          Option.isSome_iff_exists.mp (resetNearestKey_isSome (f := f) hne)
        simp [hg]
      · simp only [hlk, Bool.false_eq_true, if_false]
        simp [hfile, hn]

/-- Searching a line list for "matched and number satisfies `p`" is the
same as searching the hit-number list for `p`. -/
theorem find_matched_map_number (p : Nat → Bool) :
    ∀ ls : List MatchLine,
      (ls.find? (fun l => l.matched && p l.number)).map (fun l => l.number) =
        (hitsOf ls).find? p := by
  intro ls
  induction ls with
  | nil => rfl
  | cons l rest ih =>
    cases hm : l.matched with
    | false =>
      have h1 : hitsOf (l :: rest) = hitsOf rest := by
        simp [hitsOf, hm]
      have h2 : (l :: rest).find? (fun l => l.matched && p l.number) =
          rest.find? (fun l => l.matched && p l.number) :=
        List.find?_cons_of_neg _ (by simp [hm])
      rw [h1, h2, ih]
    | true =>
      have hh : hitsOf (l :: rest) = l.number :: hitsOf rest := by
        simp [hitsOf, hm]
      rw [hh]
      cases hp : p l.number with
      | false =>
        have h2 : (l :: rest).find? (fun l => l.matched && p l.number) =
            rest.find? (fun l => l.matched && p l.number) :=
          List.find?_cons_of_neg _ (by simp [hm, hp])
        have h3 : (l.number :: hitsOf rest).find? p = (hitsOf rest).find? p :=
          List.find?_cons_of_neg _ (by simp [hp])
        rw [h2, h3, ih]
      | true =>
        have h2 : (l :: rest).find? (fun l => l.matched && p l.number) =
            some l :=
          List.find?_cons_of_pos _ (by simp [hm, hp])
        have h3 : (l.number :: hitsOf rest).find? p = some l.number :=
          List.find?_cons_of_pos _ (by simp [hp])
        rw [h2, h3]
        rfl

/-- The first matched line's number is the head of the hit-number list. -/
theorem find_matched_head :
    ∀ ls : List MatchLine,
      (ls.find? (fun x => x.matched)).map (fun l => l.number) =
        (hitsOf ls).head? := by
  intro ls
  induction ls with
  | nil => rfl
  | cons l rest ih =>
    cases hm : l.matched with
    | false =>
      have h1 : hitsOf (l :: rest) = hitsOf rest := by
        simp [hitsOf, hm]
      have h2 : (l :: rest).find? (fun x => x.matched) =
          rest.find? (fun x => x.matched) :=
        List.find?_cons_of_neg _ (by simp [hm])
      rw [h1, h2, ih]
    | true =>
      have hh : hitsOf (l :: rest) = l.number :: hitsOf rest := by
        simp [hitsOf, hm]
      have h2 : (l :: rest).find? (fun x => x.matched) = some l :=
        List.find?_cons_of_pos _ (by simp [hm])
      rw [hh, h2]
      rfl

/-- Hit numbers of a reversed line list are the reversed hit numbers. -/
theorem hitsOf_reverse (ls : List MatchLine) :
    hitsOf ls.reverse = (hitsOf ls).reverse := by
  rw [hitsOf, hitsOf, List.filter_reverse, List.map_reverse]

/-- In a strictly sorted list, the first element above `xs[k]` is
`xs[k+1]`. -/
theorem sorted_find_succ :
    ∀ (xs : List Nat), xs.Pairwise (· < ·) → ∀ (k a : Nat),
      xs[k]? = some a →
      xs.find? (fun x => decide (a < x)) = xs[k + 1]? := by
  intro xs
  induction xs with
  | nil =>
    intro _ k a h
    simp at h
  | cons x xs' ih =>
    intro hp k a h
    rw [List.pairwise_cons] at hp
    cases k with
    | zero =>
      simp only [List.getElem?_cons_zero, Option.some.injEq] at h
      subst h
      have h1 : (x :: xs').find? (fun y => decide (x < y)) =
          xs'.find? (fun y => decide (x < y)) :=
        List.find?_cons_of_neg _ (by simp)
      rw [h1]
      cases xs' with
      | nil => rfl
      | cons y ys =>
        have hxy : x < y := hp.1 y (List.mem_cons_self _ _)
        have h2 : (y :: ys).find? (fun z => decide (x < z)) = some y :=
          List.find?_cons_of_pos _ (by simpa using hxy)
        rw [h2]
        simp [List.getElem?_cons_succ]
    | succ k' =>
      simp only [List.getElem?_cons_succ] at h
      have hxa : x < a := hp.1 a (List.getElem?_mem h)
      have h1 : (x :: xs').find? (fun y => decide (a < y)) =
          xs'.find? (fun y => decide (a < y)) :=
        List.find?_cons_of_neg _ (by simp; omega)
      rw [h1, ih hp.2 k' a h]
      simp [List.getElem?_cons_succ]

/-- In a strictly sorted list, nothing is below the head. -/
theorem sorted_rfind_head :
    ∀ (xs : List Nat), xs.Pairwise (· < ·) → ∀ (a : Nat),
      xs[0]? = some a →
      xs.reverse.find? (fun x => decide (x < a)) = none := by
  intro xs hp a h
  rw [List.find?_eq_none]
  intro y hy
  have hy' : y ∈ xs := List.mem_reverse.mp hy
  cases xs with
  | nil => simp at h
  | cons x xs' =>
    simp only [List.getElem?_cons_zero, Option.some.injEq] at h
    subst h
    rw [List.pairwise_cons] at hp
    rcases List.mem_cons.mp hy' with rfl | hy2
    · simp
    · have := hp.1 y hy2
      simp
      omega

/-- In a strictly sorted list, the last element below `xs[k+1]` (found by
searching the reversed list) is `xs[k]`. -/
theorem sorted_rfind_pred :
    ∀ (xs : List Nat), xs.Pairwise (· < ·) → ∀ (k a : Nat),
      xs[k + 1]? = some a →
      xs.reverse.find? (fun x => decide (x < a)) = xs[k]? := by
  intro xs
  induction xs with
  | nil =>
    intro _ k a h
    simp at h
  | cons x xs' ih =>
    intro hp k a h
    rw [List.pairwise_cons] at hp
    simp only [List.getElem?_cons_succ] at h
    rw [List.reverse_cons, List.find?_append]
    cases k with
    | zero =>
      rw [sorted_rfind_head xs' hp.2 a h]
      have hxa : x < a := hp.1 a (List.getElem?_mem h)
      simp [hxa]
    | succ k' =>
      rw [ih hp.2 k' a h]
      have hk' : k' < xs'.length := by
        have h2 : k' + 1 < xs'.length := by
          by_contra hcontr
          rw [List.getElem?_eq_none (by omega)] at h
          cases h
        omega
      simp [List.getElem?_cons_succ, List.getElem?_eq_getElem hk',
        Option.or]

theorem lookupFile_cons_self {g : String} {ls : List MatchLine}
    {rest : Files} : lookupFile ((g, ls) :: rest) g = some ls := by
  simp [lookupFile]

theorem lookupFile_cons_ne {g : String} {ls : List MatchLine} {rest : Files}
    {f : String} (h : g ≠ f) :
    lookupFile ((g, ls) :: rest) f = lookupFile rest f := by
  simp [lookupFile, h]

theorem hits_cons (g : String) (ls : List MatchLine) (rest : Files) :
    hits ((g, ls) :: rest) =
      (hitsOf ls).map (fun n => (g, n)) ++ hits rest := by
  simp [hits]

/-- A hit's file component is a key of the tree. -/
theorem hits_key_mem {files : Files} {f : String} {n : Nat}
    (h : (f, n) ∈ hits files) : f ∈ files.map Prod.fst := by
  rw [hits] at h
  obtain ⟨t, ht, hxt⟩ := List.mem_flatten.mp h
  obtain ⟨p, hp, rfl⟩ := List.mem_map.mp ht
  obtain ⟨m, -, hmx⟩ := List.mem_map.mp hxt
  have : p.1 = f := congrArg Prod.fst hmx
  exact List.mem_map.mpr ⟨p, hp, this⟩

/-- Decomposing `WFiles` at a cons cell. -/
theorem WFiles_cons {g : String} {ls : List MatchLine} {rest : Files}
    (hW : WFiles ((g, ls) :: rest)) :
    WFiles rest ∧ (∀ b ∈ rest.map Prod.fst, g < b) := by
  obtain ⟨hkeys, hfiles⟩ := hW
  rw [List.map_cons, List.pairwise_cons] at hkeys
  exact ⟨⟨hkeys.2, fun p hp => hfiles p (List.mem_cons_of_mem _ hp)⟩,
    hkeys.1⟩

/-- Under `WFiles`, each file's hit-number list is strictly sorted and
nonempty. -/
theorem WFiles_hitsOf {files : Files} (hW : WFiles files)
    {p : String × List MatchLine} (hp : p ∈ files) :
    (hitsOf p.2).Pairwise (· < ·) ∧ hitsOf p.2 ≠ [] := by
  obtain ⟨hsort, hmat⟩ := hW.2 p hp
  constructor
  · have hsub : List.Sublist ((p.2.filter (fun l => l.matched)).map
        (fun l => l.number)) (p.2.map (fun l => l.number)) :=
      List.Sublist.map _ (List.filter_sublist p.2)
    exact List.Pairwise.sublist hsub hsort
  · obtain ⟨l, hl, hlm⟩ := hmat
    have : l.number ∈ hitsOf p.2 :=
      List.mem_map.mpr ⟨l, List.mem_filter.mpr ⟨hl, by simp [hlm]⟩, rfl⟩
    exact List.ne_nil_of_mem this

/-- With every key at least `f`'s lower bound `g` excluded, `nextKeyAfter`
ignores a head strictly below `f`. -/
theorem nextKeyAfter_cons_tail {g : String} {ls : List MatchLine}
    {rest : Files} {f : String} (h : g < f) :
    nextKeyAfter ((g, ls) :: rest) f = nextKeyAfter rest f := by
  rw [nextKeyAfter, nextKeyAfter, List.filter_cons]
  rw [if_neg (by simp only [decide_eq_true_eq]; exact not_le_of_lt h)]

/-- On the head key itself, `nextKeyAfter` returns the following key. -/
theorem nextKeyAfter_cons_head {g : String} {ls : List MatchLine}
    {rest : Files} (h : ∀ b ∈ rest.map Prod.fst, g < b) :
    nextKeyAfter ((g, ls) :: rest) g = (rest.map Prod.fst)[0]? := by
  rw [nextKeyAfter, List.filter_cons, if_pos (by simp)]
  have hrest : rest.filter (fun kv => decide (g ≤ kv.1)) = rest := by
    refine List.filter_eq_self.mpr ?_
    intro kv hkv
    have := h kv.1 (List.mem_map.mpr ⟨kv, hkv, rfl⟩)
    simp only [decide_eq_true_eq]
    exact le_of_lt this
  rw [hrest, List.map_cons, List.getElem?_cons_succ]

/-- `prevKeyBefore` on the head key is `none` when every other key is
above it. -/
theorem prevKeyBefore_cons_head {g : String} {ls : List MatchLine}
    {rest : Files} (h : ∀ b ∈ rest.map Prod.fst, g < b) :
    prevKeyBefore ((g, ls) :: rest) g = none := by
  rw [prevKeyBefore, List.filter_cons, if_neg (by simp)]
  have hrest : rest.filter (fun kv => decide (kv.1 < g)) = [] := by
    rw [List.filter_eq_nil_iff]
    intro kv hkv
    have := h kv.1 (List.mem_map.mpr ⟨kv, hkv, rfl⟩)
    simp only [decide_eq_true_eq, not_lt]
    exact le_of_lt this
  rw [hrest]
  rfl

/-- `prevKeyBefore` probing the second file returns the first. -/
theorem prevKeyBefore_second {g : String} {ls : List MatchLine}
    {rest : Files} {g1 : String}
    (hgg1 : g < g1) (h : ∀ b ∈ rest.map Prod.fst, g1 ≤ b) :
    prevKeyBefore ((g, ls) :: rest) g1 = some g := by
  rw [prevKeyBefore, List.filter_cons, if_pos (by simpa using hgg1)]
  have hrest : rest.filter (fun kv => decide (kv.1 < g1)) = [] := by
    rw [List.filter_eq_nil_iff]
    intro kv hkv
    have := h kv.1 (List.mem_map.mpr ⟨kv, hkv, rfl⟩)
    simp only [decide_eq_true_eq, not_lt]
    exact this
  rw [hrest]
  rfl

/-- `nextHit` with the file's lines already looked up. -/
theorem nextHit_eq_of_lookup {files : Files} {f : String} {n : Nat}
    {lines : List MatchLine} (hl : lookupFile files f = some lines) :
    nextHit files f n =
      match lines.find? (fun l => l.matched && decide (n < l.number)) with
      | some l => some (f, l.number)
      | none =>
        match nextKeyAfter files f with
        | none => none
        | some g =>
          match lookupFile files g with
          | none => none
          | some glines =>
            (glines.find? (fun x => x.matched)).map (fun l => (g, l.number)) := by
  rw [nextHit, hl]

/-- `prevHit` with the file's lines already looked up. -/
theorem prevHit_eq_of_lookup {files : Files} {f : String} {n : Nat}
    {lines : List MatchLine} (hl : lookupFile files f = some lines) :
    prevHit files f n =
      match lines.reverse.find?
          (fun l => l.matched && decide (l.number < n)) with
      | some l => some (f, l.number)
      | none =>
        match prevKeyBefore files f with
        | none => none
        | some g =>
          match lookupFile files g with
          | none => none
          | some glines =>
            (glines.reverse.find? (fun x => x.matched)).map
              (fun l => (g, l.number)) := by
  rw [prevHit, hl]

/-- `nextHit` ignores a leading file strictly below the probed key. -/
theorem nextHit_cons_tail {g : String} {ls : List MatchLine} {rest : Files}
    {f : String} {n : Nat}
    (hkeys : ∀ b ∈ rest.map Prod.fst, g < b)
    (hf : f ∈ rest.map Prod.fst) :
    nextHit ((g, ls) :: rest) f n = nextHit rest f n := by
  have hgf : g < f := hkeys f hf
  have hgne : g ≠ f := ne_of_lt hgf
  obtain ⟨lines, hlk⟩ := Option.isSome_iff_exists.mp (lookupFile_isSome hf)
  have hlfull : lookupFile ((g, ls) :: rest) f = some lines := by
    rw [lookupFile_cons_ne hgne, hlk]
  rw [nextHit_eq_of_lookup hlfull, nextHit_eq_of_lookup hlk]
  cases hfind : lines.find? (fun l => l.matched && decide (n < l.number)) with
  | some l => rfl
  | none =>
    rw [nextKeyAfter_cons_tail hgf]
    cases hnext : nextKeyAfter rest f with
    | none => rfl
    | some g2 =>
      have hg2 : g2 ∈ rest.map Prod.fst := nextKeyAfter_mem hnext
      have hg2ne : g ≠ g2 := ne_of_lt (hkeys g2 hg2)
      simp [lookupFile_cons_ne hg2ne]

/-- `prevHit` ignores a leading file strictly below the probed key, as long
as `prevHit` on the tail finds something. -/
theorem prevHit_cons_tail {g : String} {ls : List MatchLine} {rest : Files}
    {f : String} {n : Nat} {h0 : String × Nat}
    (hkeys : ∀ b ∈ rest.map Prod.fst, g < b)
    (hf : f ∈ rest.map Prod.fst)
    (hres : prevHit rest f n = some h0) :
    prevHit ((g, ls) :: rest) f n = some h0 := by
  have hgf : g < f := hkeys f hf
  have hgne : g ≠ f := ne_of_lt hgf
  obtain ⟨lines, hlk⟩ := Option.isSome_iff_exists.mp (lookupFile_isSome hf)
  have hlfull : lookupFile ((g, ls) :: rest) f = some lines := by
    rw [lookupFile_cons_ne hgne, hlk]
  rw [prevHit_eq_of_lookup hlk] at hres
  rw [prevHit_eq_of_lookup hlfull]
  cases hfind :
      lines.reverse.find? (fun l => l.matched && decide (l.number < n)) with
  | some l =>
    rw [hfind] at hres
    exact hres
  | none =>
    rw [hfind] at hres
    cases hprev : prevKeyBefore rest f with
    | none => rw [hprev] at hres; cases hres
    | some g2 =>
      rw [hprev] at hres
      have hMne : ((rest.filter (fun kv => decide (kv.1 < f))).map
          Prod.fst) ≠ [] := by
        intro hcontr
        rw [prevKeyBefore, hcontr] at hprev
        cases hprev
      have hfull : prevKeyBefore ((g, ls) :: rest) f = some g2 := by
        rw [prevKeyBefore, List.filter_cons, if_pos (by simpa using hgf)]
        rw [prevKeyBefore] at hprev
        rw [List.map_cons]
        cases hM : (rest.filter (fun kv => decide (kv.1 < f))).map
            Prod.fst with
        | nil => exact absurd hM hMne
        | cons m0 M2 =>
          rw [hM] at hprev
          rw [List.getLast?_cons_cons]
          exact hprev
      rw [hfull]
      have hg2 : g2 ∈ rest.map Prod.fst :=
        prevKeyBefore_mem hprev
      have hg2ne : g ≠ g2 := ne_of_lt (hkeys g2 hg2)
      simpa [lookupFile_cons_ne hg2ne] using hres

/-- The flattened hit list has no duplicates (keys are distinct and, within
a file, hit numbers are strictly increasing). -/
theorem hits_nodup : ∀ (files : Files), WFiles files → (hits files).Nodup := by
  intro files
  induction files with
  | nil =>
    intro _
    simp [hits]
  | cons p rest ih =>
    intro hW
    obtain ⟨g0, ls0⟩ := p
    obtain ⟨hWrest, hkeys⟩ := WFiles_cons hW
    obtain ⟨hsort0, -⟩ := WFiles_hitsOf hW (List.mem_cons_self _ _)
    rw [hits_cons]
    refine List.Nodup.append ?_ (ih hWrest) ?_
    · refine List.Nodup.map ?_ (hsort0.imp (fun hlt => Nat.ne_of_lt hlt))
      intro a b hab
      exact (Prod.mk.injEq _ _ _ _).mp hab |>.2
    · intro x hxB hxR
      obtain ⟨m, -, rfl⟩ := List.mem_map.mp hxB
      have : g0 ∈ rest.map Prod.fst := hits_key_mem hxR
      exact absurd rfl (ne_of_lt (hkeys g0 this))

/-- Successor correspondence: position `k+1` of the flattened hit list is
exactly what `nextHit` computes from position `k`. -/
theorem flat_next :
    ∀ (files : Files), WFiles files → ∀ (k : Nat) (f : String) (n : Nat),
      (hits files)[k]? = some (f, n) →
      (hits files)[k + 1]? = nextHit files f n := by
  intro files
  induction files with
  | nil =>
    intro _ k f n h
    simp [hits] at h
  | cons p rest ih =>
    intro hW k f n h
    obtain ⟨g0, ls0⟩ := p
    obtain ⟨hWrest, hkeys⟩ := WFiles_cons hW
    obtain ⟨hsort0, hne0⟩ := WFiles_hitsOf hW (List.mem_cons_self _ _)
    rw [hits_cons] at h ⊢
    rw [List.getElem?_append] at h ⊢
    rw [List.length_map] at h ⊢
    by_cases hk : k < (hitsOf ls0).length
    · rw [if_pos hk] at h
      rw [List.getElem?_map] at h
      obtain ⟨m, hm, hfm⟩ := Option.map_eq_some'.mp h
      have hfg : f = g0 := (congrArg Prod.fst hfm).symm
      have hnm : n = m := (congrArg Prod.snd hfm).symm
      rw [hfg, hnm]
      rw [nextHit_eq_of_lookup (lookupFile_cons_self)]
      have hsucc := sorted_find_succ (hitsOf ls0) hsort0 k m hm
      have hfindmap := find_matched_map_number (fun x => decide (m < x)) ls0
      rw [hsucc] at hfindmap
      by_cases hk1 : k + 1 < (hitsOf ls0).length
      · obtain ⟨b, hb⟩ : ∃ b, (hitsOf ls0)[k + 1]? = some b := by
          rw [List.getElem?_eq_getElem hk1]
          exact ⟨_, rfl⟩
        rw [hb] at hfindmap
        obtain ⟨l, hl, hlb⟩ := Option.map_eq_some'.mp hfindmap
        rw [if_pos hk1, List.getElem?_map, hb]
        simp only [hl]
        simp [hlb]
      · have hnone : (hitsOf ls0)[k + 1]? = none :=
          List.getElem?_eq_none (by omega)
        rw [hnone] at hfindmap
        have hfd : ls0.find? (fun l => l.matched && decide (m < l.number)) =
            none := Option.map_eq_none'.mp hfindmap
        rw [hfd]
        rw [if_neg hk1]
        have hidx : k + 1 - (hitsOf ls0).length = 0 := by omega
        rw [hidx]
        rw [nextKeyAfter_cons_head hkeys]
        cases rest with
        | nil => simp [hits]
        | cons p1 rest2 =>
          obtain ⟨g1, ls1⟩ := p1
          have hg1ne : g0 ≠ g1 := by
            refine ne_of_lt (hkeys g1 ?_)
            simp
          rw [List.map_cons, List.getElem?_cons_zero]
          simp only [lookupFile_cons_ne hg1ne, lookupFile_cons_self]
          obtain ⟨-, hne1⟩ := WFiles_hitsOf hWrest (List.mem_cons_self _ _)
          obtain ⟨b1, hb1⟩ : ∃ b1, (hitsOf ls1).head? = some b1 :=
            Option.isSome_iff_exists.mp (List.head?_isSome.mpr hne1)
          have hfh := find_matched_head ls1
          rw [hb1] at hfh
          obtain ⟨l1, hl1, hl1b⟩ := Option.map_eq_some'.mp hfh
          rw [hits_cons, List.getElem?_append, List.length_map,
            if_pos (by
              cases hx : hitsOf ls1 with
              | nil => exact absurd hx hne1
              | cons c cs => simp [hx])]
          rw [List.getElem?_map]
          have hb1i : (hitsOf ls1)[0]? = some b1 := by
            rw [← List.head?_eq_getElem?]
            exact hb1
          rw [hb1i, hl1]
          simp [hl1b]
    · rw [if_neg hk] at h
      have hfmem : f ∈ rest.map Prod.fst :=
        hits_key_mem (List.getElem?_mem h)
      have ihres := ih hWrest _ f n h
      rw [nextHit_cons_tail hkeys hfmem]
      rw [if_neg (by omega)]
      have hidx : k + 1 - (hitsOf ls0).length =
          (k - (hitsOf ls0).length) + 1 := by omega
      rw [hidx]
      exact ihres

/-- The first flattened hit has no predecessor. -/
theorem flat_prev_zero {files : Files} (hW : WFiles files) {f : String}
    {n : Nat} (h : (hits files)[0]? = some (f, n)) :
    prevHit files f n = none := by
  cases files with
  | nil => simp [hits] at h
  | cons p rest =>
    obtain ⟨g0, ls0⟩ := p
    obtain ⟨hWrest, hkeys⟩ := WFiles_cons hW
    obtain ⟨hsort0, hne0⟩ := WFiles_hitsOf hW (List.mem_cons_self _ _)
    rw [hits_cons, List.getElem?_append, List.length_map,
      if_pos (by
        cases hx : hitsOf ls0 with
        | nil => exact absurd hx hne0
        | cons c cs => simp [hx])] at h
    rw [List.getElem?_map] at h
    obtain ⟨m, hm, hfm⟩ := Option.map_eq_some'.mp h
    have hfg : f = g0 := (congrArg Prod.fst hfm).symm
    have hnm : n = m := (congrArg Prod.snd hfm).symm
    rw [hfg, hnm]
    rw [prevHit_eq_of_lookup (lookupFile_cons_self)]
    have hrf := find_matched_map_number (fun x => decide (x < m)) ls0.reverse
    rw [hitsOf_reverse, sorted_rfind_head (hitsOf ls0) hsort0 m hm] at hrf
    have hfd : ls0.reverse.find?
        (fun l => l.matched && decide (l.number < m)) = none :=
      Option.map_eq_none'.mp hrf
    rw [hfd, prevKeyBefore_cons_head hkeys]

/-- Predecessor correspondence: what `prevHit` computes from position `k+1`
of the flattened hit list is exactly position `k`. -/
theorem flat_prev_succ :
    ∀ (files : Files), WFiles files → ∀ (k : Nat) (f : String) (n : Nat),
      (hits files)[k + 1]? = some (f, n) →
      prevHit files f n = (hits files)[k]? := by
  intro files
  induction files with
  | nil =>
    intro _ k f n h
    simp [hits] at h
  | cons p rest ih =>
    intro hW k f n h
    obtain ⟨g0, ls0⟩ := p
    obtain ⟨hWrest, hkeys⟩ := WFiles_cons hW
    obtain ⟨hsort0, hne0⟩ := WFiles_hitsOf hW (List.mem_cons_self _ _)
    rw [hits_cons] at h ⊢
    rw [List.getElem?_append] at h ⊢
    rw [List.length_map] at h ⊢
    by_cases hk1 : k + 1 < (hitsOf ls0).length
    · rw [if_pos hk1] at h
      rw [List.getElem?_map] at h
      obtain ⟨m, hm, hfm⟩ := Option.map_eq_some'.mp h
      have hfg : f = g0 := (congrArg Prod.fst hfm).symm
      have hnm : n = m := (congrArg Prod.snd hfm).symm
      rw [hfg, hnm]
      rw [prevHit_eq_of_lookup (lookupFile_cons_self)]
      have hrf := find_matched_map_number (fun x => decide (x < m)) ls0.reverse
      rw [hitsOf_reverse, sorted_rfind_pred (hitsOf ls0) hsort0 k m hm] at hrf
      obtain ⟨b, hb⟩ : ∃ b, (hitsOf ls0)[k]? = some b := by
        rw [List.getElem?_eq_getElem (by omega)]
        exact ⟨_, rfl⟩
      rw [hb] at hrf
      obtain ⟨l, hl, hlb⟩ := Option.map_eq_some'.mp hrf
      simp only [hl]
      rw [if_pos (by omega), List.getElem?_map, hb]
      simp [hlb]
    · by_cases hkeq : k + 1 = (hitsOf ls0).length
      · rw [if_neg hk1, hkeq, Nat.sub_self] at h
        cases rest with
        | nil => simp [hits] at h
        | cons p1 rest2 =>
          obtain ⟨g1, ls1⟩ := p1
          obtain ⟨hsort1, hne1⟩ :=
            WFiles_hitsOf hWrest (List.mem_cons_self _ _)
          rw [hits_cons, List.getElem?_append, List.length_map,
            if_pos (by
              cases hx : hitsOf ls1 with
              | nil => exact absurd hx hne1
              | cons c cs => simp [hx])] at h
          rw [List.getElem?_map] at h
          obtain ⟨m, hm, hfm⟩ := Option.map_eq_some'.mp h
          have hfg : f = g1 := (congrArg Prod.fst hfm).symm
          have hnm : n = m := (congrArg Prod.snd hfm).symm
          rw [hfg, hnm]
          have hg01 : g0 < g1 := hkeys g1 (by simp)
          have hg1look : lookupFile ((g0, ls0) :: (g1, ls1) :: rest2) g1 =
              some ls1 := by
            rw [lookupFile_cons_ne (ne_of_lt hg01), lookupFile_cons_self]
          rw [prevHit_eq_of_lookup hg1look]
          have hrf :=
            find_matched_map_number (fun x => decide (x < m)) ls1.reverse
          rw [hitsOf_reverse,
            sorted_rfind_head (hitsOf ls1) hsort1 m hm] at hrf
          have hfd : ls1.reverse.find?
              (fun l => l.matched && decide (l.number < m)) = none :=
            Option.map_eq_none'.mp hrf
          rw [hfd]
          have hprevk : prevKeyBefore ((g0, ls0) :: (g1, ls1) :: rest2) g1 =
              some g0 := by
            refine prevKeyBefore_second hg01 ?_
            intro b hb
            rw [List.map_cons] at hb
            rcases List.mem_cons.mp hb with rfl | hb2
            · exact le_refl _
            · obtain ⟨-, hkeys2⟩ := WFiles_cons hWrest
              exact le_of_lt (hkeys2 b hb2)
          simp only [hprevk, lookupFile_cons_self]
          have hfh := find_matched_head ls0.reverse
          rw [hitsOf_reverse, List.head?_reverse] at hfh
          obtain ⟨bl, hbl⟩ : ∃ bl, (hitsOf ls0).getLast? = some bl :=
            Option.isSome_iff_exists.mp (by
              rw [List.getLast?_isSome]
              exact hne0)
          rw [hbl] at hfh
          obtain ⟨l0, hl0, hl0b⟩ := Option.map_eq_some'.mp hfh
          simp only [hl0]
          rw [if_pos (by omega), List.getElem?_map]
          have hkidx : (hitsOf ls0)[k]? = some bl := by
            rw [List.getLast?_eq_getElem?] at hbl
            have hlen1 : (hitsOf ls0).length - 1 = k := by omega
            rw [← hlen1]
            exact hbl
          rw [hkidx]
          simp [hl0b]
      · rw [if_neg hk1] at h
        have hidx : k + 1 - (hitsOf ls0).length =
            (k - (hitsOf ls0).length) + 1 := by omega
        rw [hidx] at h
        have hfmem : f ∈ rest.map Prod.fst :=
          hits_key_mem (List.getElem?_mem h)
        have ihres := ih hWrest _ f n h
        obtain ⟨h0, hh0⟩ : ∃ h0, (hits rest)[k - (hitsOf ls0).length]? =
            some h0 := by
          have hlen : (k - (hitsOf ls0).length) + 1 < (hits rest).length := by
            by_contra hcontr
            rw [List.getElem?_eq_none (by omega)] at h
            cases h
          rw [List.getElem?_eq_getElem (by omega)]
          exact ⟨_, rfl⟩
        rw [hh0] at ihres
        rw [prevHit_cons_tail hkeys hfmem ihres]
        rw [if_neg (by omega), hh0]

theorem iterNav_zero (op : NavState → Option NavState) (s : NavState) :
    iterNav op 0 s = some s := rfl

theorem iterNav_succ (op : NavState → Option NavState) (k : Nat)
    (s : NavState) : iterNav op (k + 1) s = (iterNav op k s).bind op := rfl

/-- The flattened hit list is strictly ascending in (file path, line number)
lexicographic order. -/
theorem hits_sorted : ∀ (files : Files), WFiles files →
    (hits files).Pairwise
      (fun a b => a.1 < b.1 ∨ (a.1 = b.1 ∧ a.2 < b.2)) := by
  intro files
  induction files with
  | nil =>
    intro _
    simp [hits]
  | cons p rest ih =>
    intro hW
    obtain ⟨g0, ls0⟩ := p
    obtain ⟨hWrest, hkeys⟩ := WFiles_cons hW
    obtain ⟨hsort0, -⟩ := WFiles_hitsOf hW (List.mem_cons_self _ _)
    rw [hits_cons]
    refine List.pairwise_append.mpr ⟨?_, ih hWrest, ?_⟩
    · exact List.pairwise_map.mpr
        (hsort0.imp (fun hlt => Or.inr ⟨rfl, hlt⟩))
    · intro a ha b hb
      obtain ⟨m, -, rfl⟩ := List.mem_map.mp ha
      exact Or.inl (hkeys b.1 (hits_key_mem (by simpa using hb)))

/-- `cursor_down_line` staying within the file: the successor hit line is
selected. -/
theorem cursorDownLine_inFile {s : NavState} {f : String} {n : Nat}
    {lines : List MatchLine} {l : MatchLine}
    (hf : s.cursor.file = some f) (hn : s.cursor.lineNumber = some n)
    (hl : lookupFile s.files f = some lines)
    (hfind : lines.find? (fun l => l.matched && decide (n < l.number)) =
      some l) :
    cursorDownLine s = some { s with
      cursor := { s.cursor with lineNumber := some l.number },
      dirty := true } := by
  rw [cursorDownLine]
  simp only [hf, hn, hl, hfind]

/-- `cursor_up_line` staying within the file: the predecessor hit line is
selected. -/
theorem cursorUpLine_inFile {s : NavState} {f : String} {n : Nat}
    {lines : List MatchLine} {l : MatchLine}
    (hf : s.cursor.file = some f) (hn : s.cursor.lineNumber = some n)
    (hl : lookupFile s.files f = some lines)
    (hfind : lines.reverse.find?
      (fun l => l.matched && decide (l.number < n)) = some l) :
    cursorUpLine s = some { s with
      cursor := { s.cursor with lineNumber := some l.number },
      dirty := true } := by
  rw [cursorUpLine]
  simp only [hf, hn, hl, hfind]

/-- One line-level `cursor_down` realizes `nextHit`: it succeeds, leaves the
tree and collapsed set unchanged, and either the cursor is unchanged (no
successor hit) or it lands exactly on the successor hit. -/
theorem cursorDown_step {s : NavState} (hW : WFiles s.files) {f : String}
    {n : Nat} {lines : List MatchLine}
    (hf : s.cursor.file = some f) (hn : s.cursor.lineNumber = some n)
    (hl : lookupFile s.files f = some lines) :
    ∃ s2, cursorDown s = some s2 ∧ s2.files = s.files ∧
      s2.collapsed = s.collapsed ∧
      ((nextHit s.files f n = none ∧ s2.cursor = s.cursor) ∨
       (∃ g m, nextHit s.files f n = some (g, m) ∧
         s2.cursor = { file := some g, lineNumber := some m })) := by
  have hmem : f ∈ s.files.map Prod.fst := mem_keys_of_lookupFile hl
  have hne : s.files ≠ [] := by
    intro h0
    rw [h0] at hmem
    simp at hmem
  have hnee : s.files.isEmpty = false := by
    cases hfs : s.files with
    | nil => exact absurd hfs hne
    | cons a r => rfl
  have hstep : cursorDown s = cursorDownLine s := by
    rw [cursorDown, if_neg (by simp [hnee]), if_pos (by simp [hn])]
  cases hfind : lines.find? (fun l => l.matched && decide (n < l.number)) with
  | some l =>
    have heq : cursorDown s = some { s with
        cursor := { s.cursor with lineNumber := some l.number },
        dirty := true } := by
      rw [hstep, cursorDownLine_inFile hf hn hl hfind]
    refine ⟨_, heq, rfl, rfl, Or.inr ⟨f, l.number, ?_, ?_⟩⟩
    · rw [nextHit_eq_of_lookup hl]
      simp [hfind]
    · show Cursor.mk s.cursor.file (some l.number) = _
      rw [hf]
  | none =>
    cases hnext : nextKeyAfter s.files f with
    | none =>
      obtain ⟨l0, hl0⟩ :=
        Option.isSome_iff_exists.mp (find_matched_isSome hW hl)
      have heq : cursorDown s = some { s with dirty := true } := by
        rw [hstep, cursorDownLine_noNext hnee hf hn hl hfind hnext hl0]
      refine ⟨_, heq, rfl, rfl, Or.inl ⟨?_, rfl⟩⟩
      rw [nextHit_eq_of_lookup hl]
      simp [hfind, hnext]
    | some g =>
      have hgf : g ≠ f := by
        have := nextKeyAfter_gt hW.1 hnext
        intro hcontr
        rw [hcontr] at this
        exact lt_irrefl _ this
      obtain ⟨glines, hglk⟩ :=
        Option.isSome_iff_exists.mp (lookupFile_isSome (nextKeyAfter_mem hnext))
      obtain ⟨l0, hl0⟩ :=
        Option.isSome_iff_exists.mp (find_matched_isSome hW hglk)
      have heq : cursorDown s = some { s with
          cursor := { file := some g, lineNumber := some l0.number },
          dirty := true } := by
        rw [hstep, cursorDownLine_next hnee hf hn hl hfind hnext hgf hglk hl0]
      refine ⟨_, heq, rfl, rfl, Or.inr ⟨g, l0.number, ?_, rfl⟩⟩
      rw [nextHit_eq_of_lookup hl]
      simp [hfind, hnext, hglk, hl0]

/-- One line-level `cursor_up` realizes `prevHit`, symmetrically. -/
theorem cursorUp_step {s : NavState} (hW : WFiles s.files) {f : String}
    {n : Nat} {lines : List MatchLine}
    (hf : s.cursor.file = some f) (hn : s.cursor.lineNumber = some n)
    (hl : lookupFile s.files f = some lines) :
    ∃ s2, cursorUp s = some s2 ∧ s2.files = s.files ∧
      s2.collapsed = s.collapsed ∧
      ((prevHit s.files f n = none ∧ s2.cursor = s.cursor) ∨
       (∃ g m, prevHit s.files f n = some (g, m) ∧
         s2.cursor = { file := some g, lineNumber := some m })) := by
  have hmem : f ∈ s.files.map Prod.fst := mem_keys_of_lookupFile hl
  have hne : s.files ≠ [] := by
    intro h0
    rw [h0] at hmem
    simp at hmem
  have hnee : s.files.isEmpty = false := by
    cases hfs : s.files with
    | nil => exact absurd hfs hne
    | cons a r => rfl
  have hstep : cursorUp s = cursorUpLine s := by
    rw [cursorUp, if_neg (by simp [hnee]), if_pos (by simp [hn])]
  cases hfind :
      lines.reverse.find? (fun l => l.matched && decide (l.number < n)) with
  | some l =>
    have heq : cursorUp s = some { s with
        cursor := { s.cursor with lineNumber := some l.number },
        dirty := true } := by
      rw [hstep, cursorUpLine_inFile hf hn hl hfind]
    refine ⟨_, heq, rfl, rfl, Or.inr ⟨f, l.number, ?_, ?_⟩⟩
    · rw [prevHit_eq_of_lookup hl]
      simp [hfind]
    · show Cursor.mk s.cursor.file (some l.number) = _
      rw [hf]
  | none =>
    cases hprev : prevKeyBefore s.files f with
    | none =>
      obtain ⟨l0, hl0⟩ :=
        Option.isSome_iff_exists.mp (find_matched_isSome hW hl)
      have heq : cursorUp s = some { s with dirty := true } := by
        rw [hstep, cursorUpLine_noPrev hnee hf hn hl hfind hprev hl0]
      refine ⟨_, heq, rfl, rfl, Or.inl ⟨?_, rfl⟩⟩
      rw [prevHit_eq_of_lookup hl]
      simp [hfind, hprev]
    | some g =>
      obtain ⟨glines, hglk⟩ :=
        Option.isSome_iff_exists.mp
          (lookupFile_isSome (prevKeyBefore_mem hprev))
      obtain ⟨l1, hl1⟩ :=
        Option.isSome_iff_exists.mp (find_matched_isSome hW hglk)
      obtain ⟨l0, hl0⟩ : ∃ l0, glines.reverse.find? (fun x => x.matched) =
          some l0 := by
        refine Option.isSome_iff_exists.mp (List.find?_isSome.mpr ?_)
        obtain ⟨l2, hl2, hl2m⟩ := (hW.2 _ (lookupFile_mem hglk)).2
        exact ⟨l2, List.mem_reverse.mpr hl2, hl2m⟩
      have heq : cursorUp s = some { s with
          cursor := { file := some g, lineNumber := some l0.number },
          dirty := true } := by
        rw [hstep, cursorUpLine_prev hnee hf hn hl hfind hprev hglk hl1]
        rw [hl0]
        rfl
      refine ⟨_, heq, rfl, rfl, Or.inr ⟨g, l0.number, ?_, rfl⟩⟩
      rw [prevHit_eq_of_lookup hl]
      simp [hfind, hprev, hglk, hl0]

/-- Downward traversal: starting at the first hit, after `k` `cursor_down`
steps the cursor sits exactly on the `k`-th entry of the flattened hit
list. -/
theorem down_traversal {s : NavState} (hW : WFiles s.files)
    {h0 : String × Nat} (h0eq : (hits s.files)[0]? = some h0)
    (hcs : s.cursor = { file := some h0.1, lineNumber := some h0.2 }) :
    ∀ k hk, (hits s.files)[k]? = some hk →
      ∃ sk, iterNav cursorDown k s = some sk ∧ sk.files = s.files ∧
        sk.cursor = { file := some hk.1, lineNumber := some hk.2 } := by
  intro k
  induction k with
  | zero =>
    intro hk hkeq
    rw [h0eq] at hkeq
    cases hkeq
    exact ⟨s, rfl, rfl, hcs⟩
  | succ k ih =>
    intro hk1 hk1eq
    obtain ⟨hlt1, -⟩ := List.getElem?_eq_some.mp hk1eq
    have hklt : k < (hits s.files).length := Nat.lt_of_succ_lt hlt1
    have hkeq : (hits s.files)[k]? = some ((hits s.files)[k]) :=
      List.getElem?_eq_getElem hklt
    obtain ⟨sk, hsk, hskf, hskc⟩ := ih _ hkeq
    obtain ⟨lines, hlk⟩ :
        ∃ lines, lookupFile s.files ((hits s.files)[k]).1 = some lines :=
      Option.isSome_iff_exists.mp
        (lookupFile_isSome (hits_key_mem (List.getElem?_mem hkeq)))
    have hWk : WFiles sk.files := by rw [hskf]; exact hW
    have hfk : sk.cursor.file = some ((hits s.files)[k]).1 := by rw [hskc]
    have hnk : sk.cursor.lineNumber = some ((hits s.files)[k]).2 := by
      rw [hskc]
    have hlkk : lookupFile sk.files ((hits s.files)[k]).1 = some lines := by
      rw [hskf]; exact hlk
    obtain ⟨s2, hs2, hs2f, hs2c, hor⟩ := cursorDown_step hWk hfk hnk hlkk
    have hnext : nextHit s.files ((hits s.files)[k]).1
        ((hits s.files)[k]).2 = some hk1 :=
      (flat_next s.files hW k _ _ hkeq).symm.trans hk1eq
    have hstep1 : iterNav cursorDown (k + 1) s = some s2 := by
      rw [iterNav_succ, hsk]
      exact hs2
    rcases hor with ⟨hnone, -⟩ | ⟨g, m, hgm, hc2⟩
    · rw [hskf] at hnone
      rw [hnone] at hnext
      cases hnext
    · rw [hskf] at hgm
      have : some (g, m) = some hk1 := hgm.symm.trans hnext
      cases this
      exact ⟨s2, hstep1, hs2f.trans hskf, hc2⟩

/-- Upward traversal: starting at the last hit, after `k` `cursor_up` steps
the cursor sits exactly on the `k`-th entry from the end of the flattened
hit list. -/
theorem up_traversal {s t : NavState} (hW : WFiles s.files)
    (htf : t.files = s.files) {hL : String × Nat}
    (hLeq : (hits s.files)[(hits s.files).length - 1]? = some hL)
    (hct : t.cursor = { file := some hL.1, lineNumber := some hL.2 }) :
    ∀ k, k < (hits s.files).length →
      ∃ tk hk, iterNav cursorUp k t = some tk ∧ tk.files = s.files ∧
        (hits s.files)[(hits s.files).length - 1 - k]? = some hk ∧
        tk.cursor = { file := some hk.1, lineNumber := some hk.2 } := by
  intro k
  induction k with
  | zero =>
    intro _
    exact ⟨t, hL, rfl, htf, by simpa using hLeq, hct⟩
  | succ k ih =>
    intro hk1lt
    obtain ⟨tk, hk, htk, htkf, hkeq, htkc⟩ := ih (Nat.lt_of_succ_lt hk1lt)
    have hlen1 : 0 < (hits s.files).length := by omega
    have hj : (hits s.files).length - 1 - k =
        ((hits s.files).length - 1 - (k + 1)) + 1 := by omega
    have hjlt : (hits s.files).length - 1 - (k + 1) <
        (hits s.files).length := by omega
    have hkeq2 : (hits s.files)[((hits s.files).length - 1 - (k + 1)) + 1]? =
        some hk := by rw [← hj]; exact hkeq
    have hprev : prevHit s.files hk.1 hk.2 =
        (hits s.files)[(hits s.files).length - 1 - (k + 1)]? :=
      flat_prev_succ s.files hW _ hk.1 hk.2 hkeq2
    have hkeq3 : (hits s.files)[(hits s.files).length - 1 - (k + 1)]? =
        some ((hits s.files)[(hits s.files).length - 1 - (k + 1)]) :=
      List.getElem?_eq_getElem hjlt
    obtain ⟨lines, hlk⟩ : ∃ lines, lookupFile s.files hk.1 = some lines :=
      Option.isSome_iff_exists.mp
        (lookupFile_isSome (hits_key_mem (List.getElem?_mem hkeq)))
    have hWk : WFiles tk.files := by rw [htkf]; exact hW
    have hfk : tk.cursor.file = some hk.1 := by rw [htkc]
    have hnk : tk.cursor.lineNumber = some hk.2 := by rw [htkc]
    have hlkk : lookupFile tk.files hk.1 = some lines := by
      rw [htkf]; exact hlk
    obtain ⟨t2, ht2, ht2f, ht2c, hor⟩ := cursorUp_step hWk hfk hnk hlkk
    have hstep1 : iterNav cursorUp (k + 1) t = some t2 := by
      rw [iterNav_succ, htk]
      exact ht2
    rcases hor with ⟨hnone, -⟩ | ⟨g, m, hgm, hc2⟩
    · rw [htkf] at hnone
      rw [hnone] at hprev
      rw [hkeq3] at hprev
      cases hprev
    · rw [htkf] at hgm
      have h2 : (g, m) =
          (hits s.files)[(hits s.files).length - 1 - (k + 1)] :=
        Option.some.inj (hgm.symm.trans (hprev.trans hkeq3))
      refine ⟨t2, _, hstep1, ht2f.trans htkf, hkeq3, ?_⟩
      rw [← h2]
      exact hc2

/-- C4: on a well-formed non-empty result tree, starting at the first
file's first hit line, the `k`-th iterate of `cursor_down` sits exactly on
the `k`-th entry of the flattened hit list — which enumerates every hit
line of every file in strictly ascending (file path, line number) order
with no duplicates, so every hit is visited exactly once — and one more
`cursor_down` after the last hit succeeds but leaves the cursor (and tree)
unchanged; symmetrically, iterating `cursor_up` from the last file's last
hit line visits the hits in reverse order and is a cursor no-op at the
first hit.  File-boundary crossing (the adjacent file's first/last hit
line) is part of the correspondence, being the cross-file branch of
`nextHit`/`prevHit` realized by `cursor_down_line`/`cursor_up_line`. -/
theorem claim_C4_cursor_traversal (s t : NavState) (hW : WFiles s.files)
    (htf : t.files = s.files) {h0 hL : String × Nat}
    (h0eq : (hits s.files)[0]? = some h0)
    (hcs : s.cursor = { file := some h0.1, lineNumber := some h0.2 })
    (hLeq : (hits s.files)[(hits s.files).length - 1]? = some hL)
    (hct : t.cursor = { file := some hL.1, lineNumber := some hL.2 }) :
    (∀ k hk, (hits s.files)[k]? = some hk →
       ∃ sk, iterNav cursorDown k s = some sk ∧ sk.files = s.files ∧
         sk.cursor = { file := some hk.1, lineNumber := some hk.2 }) ∧
    (∃ sl s2, iterNav cursorDown ((hits s.files).length - 1) s = some sl ∧
       cursorDown sl = some s2 ∧ s2.cursor = sl.cursor ∧
       s2.files = sl.files) ∧
    (∀ k, k < (hits s.files).length →
       ∃ tk hk, iterNav cursorUp k t = some tk ∧ tk.files = s.files ∧
         (hits s.files)[(hits s.files).length - 1 - k]? = some hk ∧
         tk.cursor = { file := some hk.1, lineNumber := some hk.2 }) ∧
    (∃ t1 t2, iterNav cursorUp ((hits s.files).length - 1) t = some t1 ∧
       cursorUp t1 = some t2 ∧ t2.cursor = t1.cursor ∧
       t2.files = t1.files) ∧
    (hits s.files).Pairwise
      (fun a b => a.1 < b.1 ∨ (a.1 = b.1 ∧ a.2 < b.2)) ∧
    (hits s.files).Nodup := by
  have hlen : 0 < (hits s.files).length := by
    obtain ⟨h, -⟩ := List.getElem?_eq_some.mp h0eq
    exact h
  refine ⟨down_traversal hW h0eq hcs, ?_, up_traversal hW htf hLeq hct, ?_,
    hits_sorted s.files hW, hits_nodup s.files hW⟩
  · obtain ⟨sl, hsl, hslf, hslc⟩ :=
      down_traversal hW h0eq hcs ((hits s.files).length - 1) hL hLeq
    obtain ⟨lines, hlk⟩ : ∃ lines, lookupFile s.files hL.1 = some lines :=
      Option.isSome_iff_exists.mp
        (lookupFile_isSome (hits_key_mem (List.getElem?_mem hLeq)))
    have hWk : WFiles sl.files := by rw [hslf]; exact hW
    have hfk : sl.cursor.file = some hL.1 := by rw [hslc]
    have hnk : sl.cursor.lineNumber = some hL.2 := by rw [hslc]
    have hlkk : lookupFile sl.files hL.1 = some lines := by
      rw [hslf]; exact hlk
    obtain ⟨s2, hs2, hs2f, hs2c, hor⟩ := cursorDown_step hWk hfk hnk hlkk
    have hnone : nextHit s.files hL.1 hL.2 = none := by
      have h1 : (hits s.files)[(hits s.files).length - 1 + 1]? =
          nextHit s.files hL.1 hL.2 :=
        flat_next s.files hW _ hL.1 hL.2 hLeq
      rw [← h1]
      refine List.getElem?_eq_none ?_
      omega
    rcases hor with ⟨-, hc⟩ | ⟨g, m, hgm, -⟩
    · exact ⟨sl, s2, hsl, hs2, hc, hs2f⟩
    · rw [hslf] at hgm
      rw [hgm] at hnone
      cases hnone
  · obtain ⟨t1, hk, ht1, ht1f, hkeq, ht1c⟩ :=
      up_traversal hW htf hLeq hct ((hits s.files).length - 1) (by omega)
    have hidx : (hits s.files).length - 1 - ((hits s.files).length - 1) =
        0 := by omega
    rw [hidx, h0eq] at hkeq
    cases hkeq
    obtain ⟨lines, hlk⟩ : ∃ lines, lookupFile s.files h0.1 = some lines :=
      Option.isSome_iff_exists.mp
        (lookupFile_isSome (hits_key_mem (List.getElem?_mem h0eq)))
    have hWk : WFiles t1.files := by rw [ht1f]; exact hW
    have hfk : t1.cursor.file = some h0.1 := by rw [ht1c]
    have hnk : t1.cursor.lineNumber = some h0.2 := by rw [ht1c]
    have hlkk : lookupFile t1.files h0.1 = some lines := by
      rw [ht1f]; exact hlk
    obtain ⟨t2, ht2, ht2f, ht2c, hor⟩ := cursorUp_step hWk hfk hnk hlkk
    have hnone : prevHit s.files h0.1 h0.2 = none :=
      flat_prev_zero hW h0eq
    rcases hor with ⟨-, hc⟩ | ⟨g, m, hgm, -⟩
    · exact ⟨t1, t2, ht1, ht2, hc, ht2f⟩
    · rw [ht1f] at hgm
      rw [hgm] at hnone
      cases hnone

theorem claim_C4_cursor_traversal_witness :
    ∃ sk, iterNav cursorDown 2 c4Start = some sk ∧
      sk.cursor = { file := some "b.txt", lineNumber := some 1 } := by
  have hW : WFiles c4Start.files := by
    refine ⟨?_, ?_⟩
    · simp [c4Start, c4Files, String.lt_iff]
      decide
    · intro p hp
      simp [c4Start, c4Files] at hp
      rcases hp with rfl | rfl
      · exact ⟨by decide, by decide⟩
      · exact ⟨by decide, by decide⟩
  obtain ⟨hdown, -, -, -, -, -⟩ :=
    claim_C4_cursor_traversal c4Start c4End hW rfl rfl rfl rfl rfl
  obtain ⟨sk, h1, -, h3⟩ := hdown 2 ("b.txt", 1) rfl
  exact ⟨sk, h1, h3⟩

/-- C5 (code bug): `reset_cursor` invoked with the cursor at
`LineLevel("b.txt", 10)` and a new tree containing `a.txt` and `c.txt` but
not `b.txt` hits the `todo!()` at src/app.rs line 322 and panics — it never
reaches the nearest-predecessor logic, so it does not select `a.txt` at
file level as the claim states.  (The panic is reachable from the UI: the
`+`/`-`/flag key handlers call `regrep`, hence `reset_cursor`, with the
cursor still at line level.) -/
theorem claim_C5_reset_cursor_line_level_panics :
    resetCursor
      { files := [("a.txt", [⟨1, ['a'], true⟩]),
                  ("c.txt", [⟨1, ['c'], true⟩])],
        cursor := { file := some "b.txt", lineNumber := some 10 },
        collapsed := [], dirty := false } = none := rfl

/-- C6 (counterexample): `cursor_right` on a collapsed selected file selects
its first hit line but leaves the file in the collapsed set — the claim's
"removes the file from the collapsed set if it was collapsed" is false. -/
theorem claim_C6_cursor_right_counterexample :
    cursorRight
      { files := [("a.txt", [⟨1, ['a'], true⟩])],
        cursor := { file := some "a.txt", lineNumber := none },
        collapsed := ["a.txt"], dirty := false } =
      some { files := [("a.txt", [⟨1, ['a'], true⟩])],
             cursor := { file := some "a.txt", lineNumber := some 1 },
             collapsed := ["a.txt"], dirty := true } ∧
    "a.txt" ∈
      (({ files := [("a.txt", [⟨1, ['a'], true⟩])],
          cursor := { file := some "a.txt", lineNumber := some 1 },
          collapsed := ["a.txt"], dirty := true } : NavState)).collapsed := by
  constructor
  · rfl
  · simp

/-- C6 (amended): at file level `cursor_right` descends to the selected
file's first matched line and sets `dirty`, leaving the collapsed set, the
files and the rest of the state unchanged (it does not un-collapse the
file); with an empty tree or at line level it is a no-op; and when the
selected file has no matched line it panics (`expect("infallible")`) rather
than no-op. -/
theorem claim_C6_cursor_right_descend (s : NavState) :
    ((s.files.isEmpty = true ∨ s.cursor.lineNumber.isSome = true) →
        cursorRight s = some s) ∧
    (∀ f lines l, s.files.isEmpty = false → s.cursor.lineNumber = none →
      s.cursor.file = some f → lookupFile s.files f = some lines →
      lines.find? (fun x => x.matched) = some l →
      cursorRight s = some { s with
        cursor := { s.cursor with lineNumber := some l.number },
        dirty := true }) ∧
    (∀ f lines, s.files.isEmpty = false → s.cursor.lineNumber = none →
      s.cursor.file = some f → lookupFile s.files f = some lines →
      lines.find? (fun x => x.matched) = none →
      cursorRight s = none) := by
  refine ⟨?_, ?_, ?_⟩
  · intro h
    rw [cursorRight]
    rcases h with h | h <;> simp [h]
  · intro f lines l he hn hf hl hfind
    rw [cursorRight, if_neg (by simp [he, hn])]
    simp only [hf, hl, hfind]
  · intro f lines he hn hf hl hfind
    rw [cursorRight, if_neg (by simp [he, hn])]
    simp only [hf, hl, hfind]

/-- Witness for the amended C6 at a concrete input: a one-file tree with a
context line before the first hit line. -/
theorem claim_C6_cursor_right_descend_witness :
    cursorRight
      { files := [("a.txt", [⟨1, ['x'], false⟩, ⟨2, ['y'], true⟩])],
        cursor := { file := some "a.txt", lineNumber := none },
        collapsed := [], dirty := false } =
      some { files := [("a.txt", [⟨1, ['x'], false⟩, ⟨2, ['y'], true⟩])],
             cursor := { file := some "a.txt", lineNumber := some 2 },
             collapsed := [], dirty := true } := by
  have h := (claim_C6_cursor_right_descend
    { files := [("a.txt", [⟨1, ['x'], false⟩, ⟨2, ['y'], true⟩])],
      cursor := { file := some "a.txt", lineNumber := none },
      collapsed := [], dirty := false }).2.1
    "a.txt" [⟨1, ['x'], false⟩, ⟨2, ['y'], true⟩] ⟨2, ['y'], true⟩
    rfl rfl rfl rfl (by rfl)
  exact h

/-- C7 (counterexample): `toggle_all_expansion` with the cursor at line
level hits the `todo!()` at src/app.rs line 159 and panics — it is not the
defined collapse-all-excluding-current-file operation the claim states. -/
theorem claim_C7_toggle_all_line_level_counterexample :
    toggleAllExpansion
      { files := [("a.txt", [⟨1, ['a'], true⟩])],
        cursor := { file := some "a.txt", lineNumber := some 1 },
        collapsed := [], dirty := false } = none := rfl

/-- C7 (amended): on every state satisfying the app's reachability invariant
(`NavInv`: selected file present with a matched line whenever the tree is
nonempty), `cursor_up`, `cursor_down` and `cursor_right` return normally —
`cursor_left` and `toggle_expansion` are total functions of the embedding by
construction — and `toggle_all_expansion` and `reset_cursor` return normally
when the cursor is at file level; but both panic (`todo!()`) whenever the
cursor is at line level (for `reset_cursor`, on a nonempty tree), and with a
nonempty tree but an absent file selection the cursor moves panic on their
`expect("infallible")` calls rather than no-op. -/
theorem claim_C7_navigation_totality (s : NavState) (hinv : NavInv s) :
    (cursorUp s).isSome ∧
    (cursorDown s).isSome ∧
    (cursorRight s).isSome ∧
    (s.cursor.lineNumber = none → (toggleAllExpansion s).isSome) ∧
    (s.cursor.lineNumber = none → (resetCursor s).isSome) ∧
    (s.cursor.lineNumber.isSome → toggleAllExpansion s = none) ∧
    (s.files ≠ [] → s.cursor.lineNumber.isSome → resetCursor s = none) := by
  obtain ⟨hW, hsel⟩ := hinv
  refine ⟨?_, ?_, ?_, ?_, ?_, ?_, ?_⟩
  · rw [cursorUp]
    by_cases he : s.files.isEmpty
    · simp [he]
    · have hne : s.files ≠ [] := by
        cases hfs : s.files with
        | nil => rw [hfs] at he; exact absurd rfl he
        | cons a r => simp
      rw [if_neg he]
      obtain ⟨f, lines, hf, hl, -⟩ := hsel hne
      cases hln : s.cursor.lineNumber with
      | none => simp only [hln, Option.isSome_none, Bool.false_eq_true,
          if_false]
                obtain ⟨s2, hs2, -⟩ := cursorUpFile_total hf
                simp [hs2]
      | some n => simp only [hln, Option.isSome_some, if_true, if_pos]
                  exact cursorUpLine_isSome hW hf hln hl
  · rw [cursorDown]
    by_cases he : s.files.isEmpty
    · simp [he]
    · have hne : s.files ≠ [] := by
        cases hfs : s.files with
        | nil => rw [hfs] at he; exact absurd rfl he
        | cons a r => simp
      rw [if_neg he]
      obtain ⟨f, lines, hf, hl, -⟩ := hsel hne
      cases hln : s.cursor.lineNumber with
      | none => simp only [hln, Option.isSome_none, Bool.false_eq_true,
          if_false]
                obtain ⟨s2, hs2, -⟩ := cursorDownFile_total hf
                simp [hs2]
      | some n => simp only [hln, Option.isSome_some, if_true, if_pos]
                  exact cursorDownLine_isSome hW hf hln hl
  · refine cursorRight_isSome hW (fun hne => ?_)
    obtain ⟨f, lines, hf, hl, -⟩ := hsel hne
    exact ⟨f, hf, mem_keys_of_lookupFile hl⟩
  · intro hn
    exact toggleAllExpansion_isSome hn
  · intro hn
    exact resetCursor_isSome hn
  · intro hn
    rw [toggleAllExpansion, if_pos hn]
  · intro hne hn
    have he : s.files.isEmpty = false := by
      cases hfs : s.files with
      | nil => exact absurd hfs hne
      | cons a r => rfl
    rw [resetCursor, if_neg (by simp [he]), if_pos hn]

/-- Witness for the amended C7 at a concrete invariant-respecting state. -/
theorem claim_C7_navigation_totality_witness :
    (cursorUp
      { files := [("a.txt", [⟨1, ['a'], true⟩])],
        cursor := { file := some "a.txt", lineNumber := some 1 },
        collapsed := [], dirty := false }).isSome ∧
    (cursorDown
      { files := [("a.txt", [⟨1, ['a'], true⟩])],
        cursor := { file := some "a.txt", lineNumber := some 1 },
        collapsed := [], dirty := false }).isSome := by
  have hinv : NavInv
      { files := [("a.txt", [⟨1, ['a'], true⟩])],
        cursor := { file := some "a.txt", lineNumber := some 1 },
        collapsed := [], dirty := false } := by
    refine ⟨⟨by simp, ?_⟩, ?_⟩
    · intro p hp
      simp only [List.mem_singleton] at hp
      subst hp
      exact ⟨by simp, ⟨1, ['a'], true⟩, by simp, rfl⟩
    · intro _
      refine ⟨"a.txt", [⟨1, ['a'], true⟩], rfl, rfl, ?_⟩
      intro n hn
      cases hn
      exact ⟨⟨1, ['a'], true⟩, by simp, rfl, rfl⟩
  have h := claim_C7_navigation_totality _ hinv
  exact ⟨h.1, h.2.1⟩

/-- C8 (counterexample): a failing search is fatal in this version — the
event-loop step returns no continuation state, contradicting the claim that
the loop continues with the message rendered in place of the tree. -/
theorem claim_C8_search_failure_counterexample :
    eventLoopStepRegrep (Except.error "fatal: bad pattern")
      { files := [("a.txt", [⟨1, ['a'], true⟩])],
        cursor := { file := some "a.txt", lineNumber := none },
        collapsed := [], dirty := false } = none := rfl

/-- C8 (amended): when the search provider fails, `regrep` propagates the
failure via `or_fail`/`?` before assigning `search_result`, so the previous
result tree and cursor are left untouched (no state with a modified tree is
produced), but the failure is fatal: `handle_key_event` and `run` propagate
it and the event loop terminates instead of rendering the message inline.
(The inline rendering path, `SearchResultWidget::render_error`, exists in
src/widget_search_result.rs but is driven by a `SearchResult::error` field
that this version's `AppState::regrep` never produces.) -/
theorem claim_C8_search_failure_fatal (e : String) (s : NavState) :
    regrep (Except.error e) s = Except.error (AppErr.failed e) ∧
    eventLoopStepRegrep (Except.error e) s = none :=
  ⟨rfl, rfl⟩

/-- Every draw command emitted by `highlight_line` sits at or after the
running column offset. -/
theorem highlightLineGo_col_ge (w : Char → Nat) :
    ∀ (ms : List (List Char)) (text : List Char) (c : Nat),
      ∀ x ∈ highlightLineGo w text c ms, c ≤ x.1 := by
  intro ms
  induction ms with
  | nil =>
    intro text c x hx
    simp [highlightLineGo] at hx
  | cons m rest ih =>
    intro text c x hx
    rw [highlightLineGo] at hx
    cases hfind : findSub text m with
    | none =>
      rw [hfind] at hx
      exact ih text c x hx
    | some i =>
      rw [hfind] at hx
      rcases List.mem_cons.mp hx with rfl | hx'
      · exact Nat.le_add_right _ _
      · have := ih (text.drop (i + m.length))
          (c + widthChars w (text.take i) + widthChars w m) x hx'
        omega

/-- C9 (amended): `SearchResultWidget::highlight_line` silently skips a
reported match that substring search does not find in the remaining line
text (a defined no-op — the function is total and simply continues with the
next match), applies found matches left to right, and advances the search
offset past each found match, so consecutive draw commands never overlap
(each starts at or after the previous one's end column); by contrast the
`Tree::render_lines` highlight loop in src/app.rs panics
(`expect("TODO")`) on the first match that is not found. -/
theorem claim_C9_highlight_skip_unfound (w : Char → Nat) :
    (∀ (text : List Char) (c : Nat) (m : List Char) (ms : List (List Char)),
      findSub text m = none →
      highlightLineGo w text c (m :: ms) = highlightLineGo w text c ms) ∧
    (∀ (text : List Char) (c : Nat) (m : List Char) (ms : List (List Char))
        (i : Nat),
      findSub text m = some i →
      highlightLineGo w text c (m :: ms) =
        (c + widthChars w (text.take i), m) ::
          highlightLineGo w (text.drop (i + m.length))
            (c + widthChars w (text.take i) + widthChars w m) ms) ∧
    (∀ (text : List Char) (c : Nat) (ms : List (List Char)),
      List.Chain' (fun a b => a.1 + widthChars w a.2 ≤ b.1)
        (highlightLineGo w text c ms)) ∧
    (∀ (text : List Char) (offset : Nat) (m : List Char)
        (ms : List (List Char)),
      findSub (text.drop offset) m = none →
      renderHighlightsGo text offset (m :: ms) = none) := by
  refine ⟨?_, ?_, ?_, ?_⟩
  · intro text c m ms h
    rw [highlightLineGo, h]
  · intro text c m ms i h
    rw [highlightLineGo, h]
  · intro text c ms
    induction ms generalizing text c with
    | nil => simp [highlightLineGo]
    | cons m rest ih =>
      rw [highlightLineGo]
      cases hfind : findSub text m with
      | none => exact ih text c
      | some i =>
        rw [List.chain'_cons']
        refine ⟨?_, ih _ _⟩
        intro b hb
        have hbmem : b ∈ highlightLineGo w (text.drop (i + m.length))
            (c + widthChars w (text.take i) + widthChars w m) rest :=
          List.mem_of_mem_head? hb
        have := highlightLineGo_col_ge w rest _ _ b hbmem
        simpa using this
  · intro text offset m ms h
    rw [renderHighlightsGo, h]

/-- C9 (counterexample): the active renderer (`Tree::render_lines` in
src/app.rs) panics via `expect("TODO")` when a reported match (`"z"`) is not
found in the line text (`"ab"`), instead of silently skipping it. -/
theorem claim_C9_render_lines_panics :
    renderHighlightsGo ['a', 'b'] 0 [['z']] = none := rfl

/-- Witness for the amended C9 at concrete inputs: the unfound match `"z"`
is skipped while the found match `"b"` is emitted at its column. -/
theorem claim_C9_highlight_skip_unfound_witness :
    highlightLineGo wEx ['a', 'b'] 7 [['z'], ['b']] = [(8, ['b'])] := by
  have h := claim_C9_highlight_skip_unfound wEx
  rw [h.1 ['a', 'b'] 7 ['z'] [['b']] (by rfl)]
  rw [h.2.1 ['a', 'b'] 7 ['b'] [] 1 (by rfl)]
  rfl

/-- C1: splitting a styled span at a column `col` strictly inside a
multi-width character yields a left part of display width exactly `col`, the
straddled character replaced on the left by one filler `…` per remaining
column (`col - width(prefix)` of them) and absent from both parts, the right
part being exactly the characters after it with both styles preserved.  Both
sides are, by construction of the embedding, sequences of whole characters:
the split never divides a character, so no byte-level corruption can occur. -/
theorem claim_C1_split_inside_wide_char (w : Char → Nat) (t : Token)
    (col : Nat) (pcs : List Char) (c : Char) (post : List Char)
    (htext : t.text = pcs ++ c :: post)
    (hlt : widthChars w pcs < col)
    (hgt : col < widthChars w pcs + w c)
    (hfill : w fillerChar = 1) :
    (t.splitPrefixOff w col).1.text =
        pcs ++ List.replicate (col - widthChars w pcs) fillerChar ∧
    (t.splitPrefixOff w col).2.text = post ∧
    (t.splitPrefixOff w col).1.style = t.style ∧
    (t.splitPrefixOff w col).2.style = t.style ∧
    widthChars w (t.splitPrefixOff w col).1.text = col := by
  obtain ⟨hres, hwidth⟩ :=
    Token.splitPrefixOff_straddle w t col pcs c post htext hlt hgt hfill
  rw [hres] at hwidth ⊢
  exact ⟨rfl, rfl, rfl, rfl, hwidth⟩

/-- Witness for C1 at a concrete input: token text `aあb` (with `あ` two
columns wide) split at column 2, which falls inside `あ` (columns [1,3)). -/
theorem claim_C1_split_inside_wide_char_witness :
    (Token.splitPrefixOff wEx ⟨['a', 'あ', 'b'], TokenStyle.bold⟩ 2).1.text =
        ['a', fillerChar] ∧
    (Token.splitPrefixOff wEx ⟨['a', 'あ', 'b'], TokenStyle.bold⟩ 2).2.text =
        ['b'] ∧
    widthChars wEx
        (Token.splitPrefixOff wEx ⟨['a', 'あ', 'b'], TokenStyle.bold⟩ 2).1.text
      = 2 := by
  have h := claim_C1_split_inside_wide_char wEx
    ⟨['a', 'あ', 'b'], TokenStyle.bold⟩ 2 ['a'] 'あ' ['b']
    rfl (by decide) (by decide) (by decide)
  exact ⟨by rw [h.1]; rfl, h.2.1, h.2.2.2.2⟩

end Mamegrep
